import Mathlib

/-!
Shallow embedding of the bcoin UTXO view subsystem:

* `lib/coins/coinentry.js` — one unspent-or-spent output record with its
  packed binary serialization (varint version, packed height/coinbase word,
  codec-encoded output);
* `lib/coins/coins.js` (the `RawCoin`-based version shipped in this tree) —
  the per-transaction, index-addressable collection of optional entries;
* `lib/coins/undocoins.js` — the LIFO undo stack replayed on reorg;
* `lib/coins/coinview.js` — the hash-to-Coins overlay map with one shared
  undo stack and read-through access to a backing store.

Machine integers are modelled as `Nat`/`Int`; buffers as `List Nat` of byte
values; JavaScript `undefined`/`null` results as `Option`; thrown JavaScript
errors (TypeError on a property access of `undefined`/`null`, failed
`assert`) as `Except JsErr`.  The output-compression codec (`compress.js`),
the backing store, and the primitive types (`Output`, `Script`, `Coin`,
`Outpoint`, `Input`, `TX`) are external collaborators of the core per the
specification and are modelled from their stated contracts: the codec as a
parameter with its encode/decode/size interface, the store as a function
from outpoints to optional entries, scripts as byte lists carrying the
result of the external `isUnspendable` predicate.
-/

/-! ## Byte-level primitives (`utils/encoding`, reader and writer) -/

/-- Little-endian bytes of a 16-bit write. -/
def u16le (n : Nat) : List Nat := [n % 256, n / 256 % 256]

/-- Little-endian bytes of a 32-bit write. -/
def u32le (n : Nat) : List Nat :=
  [n % 256, n / 256 % 256, n / 65536 % 256, n / 16777216 % 256]

/-- Little-endian bytes of a 64-bit write. -/
def u64le (n : Nat) : List Nat :=
  [n % 256, n / 256 % 256, n / 65536 % 256, n / 16777216 % 256,
   n / 4294967296 % 256, n / 1099511627776 % 256,
   n / 281474976710656 % 256, n / 72057594037927936 % 256]

/-- Reader `readU8`: one byte, or nothing on an exhausted buffer. -/
def readU8 : List Nat → Option (Nat × List Nat)
  | [] => none
  | b :: r => some (b, r)

/-- Reader `readU16` (little endian). -/
def readU16 : List Nat → Option (Nat × List Nat)
  | b0 :: b1 :: r => some (b0 + 256 * b1, r)
  | _ => none

/-- Reader `readU32` (little endian). -/
def readU32 : List Nat → Option (Nat × List Nat)
  | b0 :: b1 :: b2 :: b3 :: r =>
      some (b0 + 256 * b1 + 65536 * b2 + 16777216 * b3, r)
  | _ => none

/-- Reader `readU64` (little endian). -/
def readU64 : List Nat → Option (Nat × List Nat)
  | b0 :: b1 :: b2 :: b3 :: b4 :: b5 :: b6 :: b7 :: r =>
      some (b0 + 256 * b1 + 65536 * b2 + 16777216 * b3 + 4294967296 * b4 +
            1099511627776 * b5 + 281474976710656 * b6 +
            72057594037927936 * b7, r)
  | _ => none

/-- Bitcoin-style variable length integer writer (`encoding.writeVarint`). -/
def writeVarint (n : Nat) : List Nat :=
  if n < 253 then [n]
  else if n ≤ 65535 then 253 :: u16le n
  else if n ≤ 4294967295 then 254 :: u32le n
  else 255 :: u64le n

/-- Size of the variable length integer encoding (`encoding.sizeVarint`). -/
def sizeVarint (n : Nat) : Nat :=
  if n < 253 then 1 else if n ≤ 65535 then 3 else if n ≤ 4294967295 then 5 else 9

/-- Bitcoin-style variable length integer reader (`encoding.readVarint`). -/
def readVarint : List Nat → Option (Nat × List Nat)
  | [] => none
  | b :: r =>
      if b < 253 then some (b, r)
      else if b = 253 then readU16 r
      else if b = 254 then readU32 r
      else readU64 r

/-- Reader `readBytes`: a fixed number of raw bytes. -/
def readBytes : Nat → List Nat → Option (List Nat × List Nat)
  | 0, bs => some ([], bs)
  | _ + 1, [] => none
  | n + 1, b :: bs => (readBytes n bs).map (fun p => (b :: p.1, p.2))

theorem readU16_u16le {n : Nat} (h : n ≤ 65535) (rest : List Nat) :
    readU16 (u16le n ++ rest) = some (n, rest) := by
  simp only [u16le, List.cons_append, List.nil_append, readU16]
  have e : n % 256 + 256 * (n / 256 % 256) = n := by omega
  rw [e]

theorem readU32_u32le {n : Nat} (h : n ≤ 4294967295) (rest : List Nat) :
    readU32 (u32le n ++ rest) = some (n, rest) := by
  simp only [u32le, List.cons_append, List.nil_append, readU32]
  have e : n % 256 + 256 * (n / 256 % 256) + 65536 * (n / 65536 % 256) +
      16777216 * (n / 16777216 % 256) = n := by omega
  rw [e]

theorem readU64_u64le {n : Nat} (h : n < 18446744073709551616) (rest : List Nat) :
    readU64 (u64le n ++ rest) = some (n, rest) := by
  simp only [u64le, List.cons_append, List.nil_append, readU64]
  have e : n % 256 + 256 * (n / 256 % 256) + 65536 * (n / 65536 % 256) +
      16777216 * (n / 16777216 % 256) + 4294967296 * (n / 4294967296 % 256) +
      1099511627776 * (n / 1099511627776 % 256) +
      281474976710656 * (n / 281474976710656 % 256) +
      72057594037927936 * (n / 72057594037927936 % 256) = n := by omega
  rw [e]

theorem readVarint_writeVarint {n : Nat} (h : n < 18446744073709551616)
    (rest : List Nat) : readVarint (writeVarint n ++ rest) = some (n, rest) := by
  by_cases h1 : n < 253
  · simp [writeVarint, readVarint, h1]
  · by_cases h2 : n ≤ 65535
    · rw [writeVarint, if_neg h1, if_pos h2, List.cons_append]
      have e : readVarint (253 :: (u16le n ++ rest)) = readU16 (u16le n ++ rest) := rfl
      rw [e, readU16_u16le h2]
    · by_cases h3 : n ≤ 4294967295
      · rw [writeVarint, if_neg h1, if_neg h2, if_pos h3, List.cons_append]
        have e : readVarint (254 :: (u32le n ++ rest)) = readU32 (u32le n ++ rest) := rfl
        rw [e, readU32_u32le h3]
      · rw [writeVarint, if_neg h1, if_neg h2, if_neg h3, List.cons_append]
        have e : readVarint (255 :: (u64le n ++ rest)) = readU64 (u64le n ++ rest) := rfl
        rw [e, readU64_u64le h]

theorem length_writeVarint (n : Nat) : (writeVarint n).length = sizeVarint n := by
  by_cases h1 : n < 253 <;> by_cases h2 : n ≤ 65535 <;> by_cases h3 : n ≤ 4294967295 <;>
    simp [writeVarint, sizeVarint, u16le, u32le, u64le, h1, h2, h3]

theorem readBytes_append {xs : List Nat} (rest : List Nat) :
    readBytes xs.length (xs ++ rest) = some (xs, rest) := by
  induction xs with
  | nil => rfl
  | cons b bs ih => simp [readBytes, ih]

/-! ## The packed height/coinbase word (`coinentry.js` lines 157-181, 210-230)

`toWriter` packs the height into bits 0-28 of a 32-bit word (with
`0x1fffffff` standing for the unconfirmed sentinel `-1`) and a code in the
top bits whose bit 0 is the coinbase flag; `fromReader` undoes the packing.
`0x1fffffff = 536870911` and `2 ^ 29 = 536870912`. -/

/-- Packing performed by `CoinEntry.prototype.toWriter`:
`if (height === -1) height = 0x1fffffff; if (coinbase) code |= 1; height |= code << 29`. -/
def packHeight (height : Int) (coinbase : Bool) : Nat :=
  (if height = -1 then 536870911 else height.toNat) |||
    ((if coinbase then 1 else 0) <<< 29)

/-- Height extraction performed by `CoinEntry.prototype.fromReader`:
`height &= 0x1fffffff; if (height === 0x1fffffff) height = -1`. -/
def unpackHeight (w : Nat) : Int :=
  if w &&& 536870911 = 536870911 then -1 else ((w &&& 536870911 : Nat) : Int)

/-- Coinbase extraction performed by `CoinEntry.prototype.fromReader`:
`code = height >>> 29; coinbase = (code & 1) !== 0`. -/
def unpackCoinbase (w : Nat) : Bool :=
  (w >>> 29) &&& 1 != 0

theorem lor_two_pow_of_lt {n h : Nat} (hh : h < 2 ^ n) : h ||| 2 ^ n = h + 2 ^ n := by
  apply Nat.eq_of_testBit_eq
  intro j
  rw [Nat.testBit_lor, Nat.testBit_two_pow, Nat.add_comm h (2 ^ n)]
  rcases lt_trichotomy j n with hj | hj | hj
  · rw [Nat.testBit_two_pow_add_gt hj]
    simp [Nat.ne_of_gt hj]
  · subst hj
    rw [Nat.testBit_two_pow_add_eq, Nat.testBit_lt_two_pow hh]
    simp
  · have h1 : h.testBit j = false := by
      apply Nat.testBit_lt_two_pow
      exact lt_of_lt_of_le hh (Nat.pow_le_pow_right (by norm_num) (Nat.le_of_lt hj))
    have h2 : (2 ^ n + h).testBit j = false := by
      apply Nat.testBit_lt_two_pow
      calc 2 ^ n + h < 2 ^ n + 2 ^ n := by omega
        _ = 2 ^ (n + 1) := by ring
        _ ≤ 2 ^ j := Nat.pow_le_pow_right (by norm_num) hj
    rw [h1, h2]
    simp [Nat.ne_of_lt hj]

theorem packHeight_eq_add (height : Int) (coinbase : Bool)
    (h1 : -1 ≤ height) (h2 : height ≤ 536870910) :
    packHeight height coinbase =
      (if height = -1 then 536870911 else height.toNat) +
        (if coinbase then 536870912 else 0) := by
  unfold packHeight
  have hlt : (if height = -1 then 536870911 else height.toNat) < 2 ^ 29 := by
    split
    · norm_num
    · omega
  cases coinbase with
  | false => simp
  | true =>
      have hs : (1 : Nat) <<< 29 = 2 ^ 29 := by norm_num [Nat.shiftLeft_eq]
      simp only [if_true]
      rw [hs, lor_two_pow_of_lt hlt]
      norm_num

theorem packHeight_lt (height : Int) (coinbase : Bool)
    (h1 : -1 ≤ height) (h2 : height ≤ 536870910) :
    packHeight height coinbase < 4294967296 := by
  rw [packHeight_eq_add height coinbase h1 h2]
  split <;> split <;> omega

theorem unpackHeight_packHeight (height : Int) (coinbase : Bool)
    (h1 : -1 ≤ height) (h2 : height ≤ 536870910) :
    unpackHeight (packHeight height coinbase) = height := by
  rw [packHeight_eq_add height coinbase h1 h2]
  unfold unpackHeight
  have e29 : (536870911 : Nat) = 2 ^ 29 - 1 := by norm_num
  rw [e29, Nat.and_pow_two_sub_one_eq_mod]
  by_cases hm : height = -1
  · have hmod : ((if height = -1 then 2 ^ 29 - 1 else height.toNat) +
        (if coinbase = true then 536870912 else 0)) % 2 ^ 29 = 2 ^ 29 - 1 := by
      simp only [hm, if_true]
      split <;> norm_num
    rw [hmod, if_pos rfl, hm]
  · have hge : 0 ≤ height := by omega
    have htn : height.toNat ≤ 536870910 := by omega
    have hmod : ((if height = -1 then 2 ^ 29 - 1 else height.toNat) +
        (if coinbase = true then 536870912 else 0)) % 2 ^ 29 = height.toNat := by
      simp only [hm, if_false]
      split <;> omega
    rw [hmod, if_neg (by omega)]
    omega

theorem unpackCoinbase_packHeight (height : Int) (coinbase : Bool)
    (h1 : -1 ≤ height) (h2 : height ≤ 536870910) :
    unpackCoinbase (packHeight height coinbase) = coinbase := by
  rw [packHeight_eq_add height coinbase h1 h2]
  unfold unpackCoinbase
  rw [Nat.shiftRight_eq_div_pow]
  have hlt : (if height = -1 then 536870911 else height.toNat) < 2 ^ 29 := by
    split
    · norm_num
    · omega
  cases coinbase with
  | false =>
      have hdiv : ((if height = -1 then 536870911 else height.toNat) +
          (if (false : Bool) = true then 536870912 else 0)) / 2 ^ 29 = 0 := by
        simp only [Bool.false_eq_true, if_false]
        omega
      rw [hdiv]
      decide
  | true =>
      have hdiv : ((if height = -1 then 536870911 else height.toNat) +
          (if (true : Bool) = true then 536870912 else 0)) / 2 ^ 29 = 1 := by
        simp only [if_true]
        omega
      rw [hdiv]
      decide

/-! ## Collaborator primitives (spec section 6)

Modelled from the spec: `Script`, `Output`, `Outpoint`, `Input`, `Coin` and
the transaction slice live in `lib/primitives` and `lib/script`, which are
not part of this tree; the spec gives their contracts. -/

/-- Modelled from the spec: a script is an opaque byte sequence exposing the
external predicate `isUnspendable`; the field stores that predicate result. -/
structure Script where
  bytes : List Nat
  unspendable : Bool
deriving DecidableEq

/-- External collaborator contract `script.isUnspendable()`. -/
def Script.isUnspendable (s : Script) : Bool := s.unspendable

/-- Modelled from the spec: an output carries a value and a script. -/
structure Output where
  value : Nat
  script : Script
deriving DecidableEq

/-- Modelled from the spec: an outpoint names an output by owning
transaction id and output index. -/
structure Outpoint where
  hash : String
  index : Nat
deriving DecidableEq

/-- Modelled from the spec: an input carries its previous-output reference. -/
structure Input where
  prevout : Outpoint
deriving DecidableEq

/-- Modelled from the spec: a fully resolved coin, the `primitives/coin`
record consumed and produced by the view. -/
structure Coin where
  version : Nat
  height : Int
  coinbase : Bool
  script : Script
  value : Nat
  hash : String
  index : Nat
deriving DecidableEq

/-- Modelled from the spec: the slice of a transaction the core reads —
`tx.hash('hex')` as `hashHex`, `tx.version`, `tx.isCoinbase()` as
`coinbase`, `tx.outputs` and `tx.inputs`. -/
structure TX where
  hashHex : String
  version : Nat
  coinbase : Bool
  outputs : List Output
  inputs : List Input
deriving DecidableEq

/-- JavaScript error outcomes relevant to this core: a TypeError raised by a
property access on undefined or null, and a failed `assert`. -/
inductive JsErr where
  | typeError
  | assertFail
deriving DecidableEq

/-- Modelled from the spec: the external output codec contract of section 6 —
`encode(output, writer)` appends bytes, `decode(output, reader)` consumes a
prefix, `estimateSize(output)` predicts the encoded length. -/
structure OutputCodec where
  encode : Output → List Nat
  decode : List Nat → Option (Output × List Nat)
  size : Output → Nat

/-! ## CoinEntry (`lib/coins/coinentry.js`)

The same record also stands for the `RawCoin` entries stored by the
`coins.js` of this tree (rawcoin.js is not under src; per spec sections 3
and 4.1 its constructors and accessors carry the same fields). -/

/-- `CoinEntry`: version, height (with the `-1` unconfirmed sentinel),
coinbase flag, output, transient spent flag, optional cached serialization. -/
structure CoinEntry where
  version : Nat
  height : Int
  coinbase : Bool
  output : Output
  spent : Bool
  raw : Option (List Nat)
deriving DecidableEq

/-- Constructor defaults of `new CoinEntry()`. -/
def CoinEntry.init : CoinEntry := ⟨1, -1, false, ⟨0, ⟨[], false⟩⟩, false, none⟩

/-- `CoinEntry.prototype.toOutput`. -/
def CoinEntry.toOutput (e : CoinEntry) : Output := e.output

/-- `CoinEntry.prototype.toCoin`. -/
def CoinEntry.toCoin (e : CoinEntry) (hash : String) (index : Nat) : Coin :=
  ⟨e.version, e.height, e.coinbase, e.output.script, e.output.value, hash, index⟩

/-- `CoinEntry.fromOutput`. -/
def CoinEntry.fromOutput (output : Output) : CoinEntry :=
  { CoinEntry.init with output := output }

/-- `CoinEntry.fromCoin`. -/
def CoinEntry.fromCoin (coin : Coin) : CoinEntry :=
  ⟨coin.version, coin.height, coin.coinbase, ⟨coin.value, coin.script⟩, false, none⟩

/-- Bytes of the non-cached path of `CoinEntry.prototype.toWriter`: varint
version, packed 32-bit height/coinbase word, codec-encoded output. -/
def entryEncode (cdc : OutputCodec) (e : CoinEntry) : List Nat :=
  writeVarint e.version ++ u32le (packHeight e.height e.coinbase) ++ cdc.encode e.output

/-- `CoinEntry.prototype.toWriter`: the cached raw bytes verbatim when
present, the packed record otherwise. -/
def CoinEntry.toWriterBytes (cdc : OutputCodec) (e : CoinEntry) : List Nat :=
  match e.raw with
  | some r => r
  | none => entryEncode cdc e

/-- `CoinEntry.prototype.getSize`. -/
def CoinEntry.getSize (cdc : OutputCodec) (e : CoinEntry) : Nat :=
  match e.raw with
  | some r => r.length
  | none => sizeVarint e.version + 4 + cdc.size e.output

/-- `CoinEntry.fromReader`: reads the varint version, the packed word and
the codec-decoded output into a fresh entry (unspent, no cached bytes). -/
def entryDecode (cdc : OutputCodec) (bs : List Nat) : Option (CoinEntry × List Nat) :=
  match readVarint bs with
  | none => none
  | some (v, r1) =>
      match readU32 r1 with
      | none => none
      | some (w, r2) =>
          match cdc.decode r2 with
          | none => none
          | some (o, r3) =>
              some (⟨v, unpackHeight w, unpackCoinbase w, o, false, none⟩, r3)

/-- The persisted image of an entry: what a decode of its serialization
rebuilds.  The spent flag is in-memory only and the raw cache is not
reconstructed (spec section 3). -/
def persistEntry (e : CoinEntry) : CoinEntry := { e with spent := false, raw := none }

/-! ## Coins (the `coins.js` of this tree, using `RawCoin` entries) -/

/-- `encoding.NULL_HASH`, the constructor default of `Coins.hash`. -/
def nullHash : String :=
  "0000000000000000000000000000000000000000000000000000000000000000"

/-- Slot lookup folding the two JavaScript nothing cases together:
undefined (index past the end) and null (interior hole) are both falsy and
are both reported as `none`. -/
def slotGet (outs : List (Option CoinEntry)) (i : Nat) : Option CoinEntry :=
  match outs[i]? with
  | some (some e) => some e
  | _ => none

/-- Unspent test on a slot: the slot exists, is non-null, and its entry is
not spent (`Coins.prototype.isUnspent`). -/
def isUnspentSlot (outs : List (Option CoinEntry)) (i : Nat) : Bool :=
  match slotGet outs i with
  | some e => !e.spent
  | none => false

/-- `Coins`: owning transaction id plus the ordered sequence of optional
entry slots. -/
structure Coins where
  hash : String
  outputs : List (Option CoinEntry)
deriving DecidableEq

/-- Constructor state of `new Coins()`. -/
def Coins.init : Coins := ⟨nullHash, []⟩

/-- `Coins.prototype.has`: false past the end, else non-null. -/
def Coins.has (c : Coins) (i : Nat) : Bool := (slotGet c.outputs i).isSome

/-- `Coins.prototype.isUnspent`. -/
def Coins.isUnspent (c : Coins) (i : Nat) : Bool := isUnspentSlot c.outputs i

/-- `Coins.prototype.get`: undefined past the end, else the slot value —
entry, or null for a hole; the two nothing outcomes are both `none`. -/
def Coins.get (c : Coins) (i : Nat) : Option CoinEntry := slotGet c.outputs i

/-- `Coins.prototype.getOutput` of this tree: the range guard returns
undefined past the end, but an in-range null hole is dereferenced —
`this.outputs[index].toOutput()` — which throws a TypeError. -/
def Coins.getOutput (c : Coins) (i : Nat) : Except JsErr (Option Output) :=
  if c.outputs.length ≤ i then .ok none
  else
    match c.outputs.getD i none with
    | none => .error .typeError
    | some e => .ok (some e.toOutput)

/-- `Coins.prototype.getCoin` of this tree with a numeric index: same shape
as `getOutput`, materializing via `toCoin(this.hash, index)`; an in-range
null hole throws a TypeError. -/
def Coins.getCoin (c : Coins) (i : Nat) : Except JsErr (Option Coin) :=
  if c.outputs.length ≤ i then .ok none
  else
    match c.outputs.getD i none with
    | none => .error .typeError
    | some e => .ok (some (e.toCoin c.hash i))

/-- `Coins.prototype.spend`: nothing (and no state change) on a missing or
already spent slot; otherwise the entry is marked spent and returned. -/
def Coins.spend (c : Coins) (i : Nat) : Coins × Option CoinEntry :=
  match slotGet c.outputs i with
  | none => (c, none)
  | some e =>
      if e.spent then (c, none)
      else (⟨c.hash, c.outputs.set i (some { e with spent := true })⟩,
            some { e with spent := true })

/-- Array growth of `Coins.prototype.add`: pad with nulls up to the index,
then set the slot.  The source asserts that the slot is empty beforehand;
every caller in this core checks `has` first. -/
def setGrow (outs : List (Option CoinEntry)) (i : Nat) (e : CoinEntry) :
    List (Option CoinEntry) :=
  (outs ++ List.replicate (i + 1 - outs.length) none).set i (some e)

/-- `Coins.prototype.add`. -/
def Coins.add (c : Coins) (i : Nat) (e : CoinEntry) : Coins :=
  ⟨c.hash, setGrow c.outputs i e⟩

/-- Countdown of `Coins.prototype.length`: shrink from `n` while the last
considered slot is not unspent. -/
def unspentLen (outs : List (Option CoinEntry)) : Nat → Nat
  | 0 => 0
  | n + 1 => if isUnspentSlot outs n then n + 1 else unspentLen outs n

/-- `Coins.prototype.length`: one past the highest unspent slot, 0 if none. -/
def Coins.length (c : Coins) : Nat := unspentLen c.outputs c.outputs.length

/-- Tail trimming of `Coins.prototype.cleanup`: drop trailing null slots,
never interior ones. -/
def trimTail (outs : List (Option CoinEntry)) : List (Option CoinEntry) :=
  (outs.reverse.dropWhile (fun s => s.isNone)).reverse

/-- Modelled from the spec: `RawCoin.fromTX(tx, i, height)` (rawcoin.js is
not under src); per spec section 4.1 the entry takes version and coinbase
from the owning transaction, the given height, and the selected output, and
starts unspent with no cached bytes — matching `CoinEntry.prototype.fromTX`
of coinentry.js. -/
def txOutEntry (tx : TX) (height : Int) (o : Output) : CoinEntry :=
  ⟨tx.version, height, tx.coinbase, o, false, none⟩

/-- `Coins.fromTX`: one slot per transaction output in order — a null hole
for an unspendable script, an entry otherwise — then tail trimming. -/
def Coins.fromTX (tx : TX) (height : Int) : Coins :=
  ⟨tx.hashHex,
   trimTail (tx.outputs.map fun o =>
     if o.script.isUnspendable then none else some (txOutEntry tx height o))⟩

/-! ## UndoCoins (`lib/coins/undocoins.js`) -/

/-- `UndoCoins`: the ordered stack of entries removed by spends. -/
structure UndoCoins where
  items : List CoinEntry
deriving DecidableEq

/-- `UndoCoins.prototype.push`. -/
def UndoCoins.push (u : UndoCoins) (e : CoinEntry) : UndoCoins := ⟨u.items ++ [e]⟩

/-! ## CoinView (`lib/coins/coinview.js`) -/

/-- Lookup in the hash-keyed bucket map. -/
def mapGet : List (String × Coins) → String → Option Coins
  | [], _ => none
  | (k, c) :: rest, h => if k = h then some c else mapGet rest h

/-- Install or overwrite in the hash-keyed bucket map. -/
def mapSet : List (String × Coins) → String → Coins → List (String × Coins)
  | [], h, c => [(h, c)]
  | (k, v) :: rest, h, c =>
      if k = h then (h, c) :: rest else (k, v) :: mapSet rest h c

/-- `CoinView`: the bucket map plus the one shared undo stack. -/
structure CoinView where
  map : List (String × Coins)
  undo : UndoCoins
deriving DecidableEq

/-- `new CoinView()`. -/
def CoinView.init : CoinView := ⟨[], ⟨[]⟩⟩

/-- `CoinView.prototype.get`. -/
def CoinView.get (v : CoinView) (h : String) : Option Coins := mapGet v.map h

/-- `CoinView.prototype.has`. -/
def CoinView.has (v : CoinView) (h : String) : Bool := (mapGet v.map h).isSome

/-- `CoinView.prototype.add`. -/
def CoinView.add (v : CoinView) (h : String) (c : Coins) : CoinView :=
  ⟨mapSet v.map h c, v.undo⟩

/-- `CoinView.prototype.addTX`. -/
def CoinView.addTX (v : CoinView) (tx : TX) (height : Int) : CoinView :=
  v.add tx.hashHex (Coins.fromTX tx height)

/-- Loop body of `CoinView.prototype.removeTX`: `coin.spent = true` on every
element of the freshly built outputs array; the assignment on a null hole
slot throws a TypeError. -/
def markAllSpent : List (Option CoinEntry) → Except JsErr (List (Option CoinEntry))
  | [] => .ok []
  | none :: _ => .error .typeError
  | some e :: rest =>
      (markAllSpent rest).map fun r => some { e with spent := true } :: r

/-- `CoinView.prototype.removeTX`: build `Coins.fromTX`, mark every element
spent (TypeError on a hole), install under the transaction hash. -/
def CoinView.removeTX (v : CoinView) (tx : TX) (height : Int) : Except JsErr CoinView :=
  match markAllSpent (Coins.fromTX tx height).outputs with
  | .error err => .error err
  | .ok outs => .ok (v.add tx.hashHex ⟨(Coins.fromTX tx height).hash, outs⟩)

/-- `CoinView.prototype.addEntry`: find or lazily install the owning bucket,
silently drop an unspendable coin, leave an occupied slot untouched, add
otherwise; returns the bucket or nothing when dropped. -/
def CoinView.addEntry (v : CoinView) (prevout : Outpoint) (coin : CoinEntry) :
    CoinView × Option Coins :=
  let p : CoinView × Coins :=
    match v.get prevout.hash with
    | some coins => (v, coins)
    | none => (v.add prevout.hash Coins.init, Coins.init)
  if coin.output.script.isUnspendable then (p.1, none)
  else if p.2.has prevout.index then (p.1, some p.2)
  else
    let c2 := p.2.add prevout.index coin
    (p.1.add prevout.hash c2, some c2)

/-- `CoinView.prototype.addCoin`: same shape keyed by the coin itself;
`coins.addCoin(coin)` stores `RawCoin.fromCoin(coin)` at `coin.index`. -/
def CoinView.addCoin (v : CoinView) (coin : Coin) : CoinView × Option Coins :=
  let p : CoinView × Coins :=
    match v.get coin.hash with
    | some coins => (v, coins)
    | none => (v.add coin.hash Coins.init, Coins.init)
  if coin.script.isUnspendable then (p.1, none)
  else if p.2.has coin.index then (p.1, some p.2)
  else
    let c2 := p.2.add coin.index (CoinEntry.fromCoin coin)
    (p.1.add coin.hash c2, some c2)

/-- `CoinView.prototype.addOutput`: same shape; `coins.addOutput` stores
`RawCoin.fromOutput(output)`; the call returns undefined on every path. -/
def CoinView.addOutput (v : CoinView) (prevout : Outpoint) (output : Output) : CoinView :=
  let p : CoinView × Coins :=
    match v.get prevout.hash with
    | some coins => (v, coins)
    | none => (v.add prevout.hash Coins.init, Coins.init)
  if output.script.isUnspendable then p.1
  else if p.2.has prevout.index then p.1
  else p.1.add prevout.hash (p.2.add prevout.index (CoinEntry.fromOutput output))

/-- `CoinView.prototype.spendFrom` on a bucket value: delegate to
`coins.spend`, push the removed entry on success.  The triple carries the
updated undo state, the updated bucket object, and the boolean result. -/
def CoinView.spendFrom (v : CoinView) (coins : Coins) (index : Nat) :
    CoinView × Coins × Bool :=
  match coins.spend index with
  | (c1, none) => (v, c1, false)
  | (c1, some e) => (⟨v.map, v.undo.push e⟩, c1, true)

/-- `spendFrom` applied to the map-resident bucket at `h`: the JavaScript
mutation of the shared bucket object shows up in the map, modelled by the
explicit write-back. -/
def CoinView.spendFromAt (v : CoinView) (h : String) (i : Nat) : CoinView × Bool :=
  match mapGet v.map h with
  | none => (v, false)
  | some c =>
      match c.spend i with
      | (_, none) => (v, false)
      | (c1, some e) => (⟨mapSet v.map h c1, v.undo.push e⟩, true)

/-- `CoinView.prototype.getEntry`. -/
def CoinView.getEntry (v : CoinView) (input : Input) : Option CoinEntry :=
  match v.get input.prevout.hash with
  | none => none
  | some coins => coins.get input.prevout.index

/-- `CoinView.prototype.getOutput` (passes the numeric
`input.prevout.index` down). -/
def CoinView.getOutput (v : CoinView) (input : Input) : Except JsErr (Option Output) :=
  match v.get input.prevout.hash with
  | none => .ok none
  | some coins => coins.getOutput input.prevout.index

/-- JavaScript relational comparison of an outpoint object against a number:
ToPrimitive of the object is non-numeric, the comparison is NaN-flavoured
and yields false. -/
def outpointGeLen (p : Outpoint) (n : Nat) : Bool := false

/-- JavaScript array indexing with an outpoint object as the key: the key is
not an array index, so the lookup yields undefined. -/
def arrayGetOutpoint (outs : List (Option CoinEntry)) (p : Outpoint) :
    Option (Option CoinEntry) := none

/-- `Coins.prototype.getCoin` as actually invoked by
`CoinView.prototype.getCoin`, which passes the whole `input.prevout` where
the numeric index parameter is expected: the range guard compares the
outpoint against the length (false), the array access keyed by the outpoint
yields undefined, and `undefined.toCoin` throws a TypeError.  The final
branch is unreachable since the outpoint key never addresses a slot. -/
def Coins.getCoinOutpoint (c : Coins) (p : Outpoint) : Except JsErr (Option Coin) :=
  if outpointGeLen p c.outputs.length then .ok none
  else
    match arrayGetOutpoint c.outputs p with
    | none => .error .typeError
    | some none => .error .typeError
    | some (some e) => .ok (some (e.toCoin c.hash 0))

/-- `CoinView.prototype.getCoin`: `coins.getCoin(input.prevout)`. -/
def CoinView.getCoin (v : CoinView) (input : Input) : Except JsErr (Option Coin) :=
  match v.get input.prevout.hash with
  | none => .ok none
  | some coins => coins.getCoinOutpoint input.prevout

/-- `CoinView.prototype.hasEntry`. -/
def CoinView.hasEntry (v : CoinView) (input : Input) : Bool :=
  match v.get input.prevout.hash with
  | none => false
  | some coins => coins.has input.prevout.index

/-- `CoinView.prototype.readCoin`: the asynchronous `db.readCoin` collapses
to a function from outpoints to optional entries (spec section 6); the
boolean is the truthiness of the returned value — the bucket on success,
undefined when the coin is absent from the store or dropped as
unspendable by `addEntry`. -/
def CoinView.readCoin (store : Outpoint → Option CoinEntry) (v : CoinView)
    (input : Input) : CoinView × Bool :=
  if v.hasEntry input then (v, true)
  else
    match store input.prevout with
    | none => (v, false)
    | some coin =>
        let r := v.addEntry input.prevout coin
        (r.1, r.2.isSome)

/-- One iteration of the `CoinView.prototype.spendInputs` loop: read-through
load, then immediately spend the bucket slot named by the prevout. -/
def stepInput (store : Outpoint → Option CoinEntry) (v : CoinView)
    (input : Input) : CoinView × Bool :=
  let r := CoinView.readCoin store v input
  if r.2 then r.1.spendFromAt input.prevout.hash input.prevout.index
  else (r.1, false)

/-- The `spendInputs` loop over a list of inputs: stop with false at the
first failing input, keeping every earlier state change. -/
def spendInputsGo (store : Outpoint → Option CoinEntry) :
    CoinView → List Input → CoinView × Bool
  | v, [] => (v, true)
  | v, input :: rest =>
      let r := stepInput store v input
      if r.2 then spendInputsGo store r.1 rest else (r.1, false)

/-- `CoinView.prototype.spendInputs`. -/
def CoinView.spendInputs (store : Outpoint → Option CoinEntry) (v : CoinView)
    (tx : TX) : CoinView × Bool :=
  spendInputsGo store v tx.inputs

/-- `CoinView.prototype.getFastSize`: the input count plus the size of every
cached entry. -/
def CoinView.getFastSize (cdc : OutputCodec) (v : CoinView) (tx : TX) : Nat :=
  tx.inputs.foldl
    (fun acc input =>
      match v.getEntry input with
      | none => acc
      | some e => acc + e.getSize cdc)
    tx.inputs.length

/-- Writer loop of `CoinView.prototype.toFast`: per input in order, a 0 byte
when no coin is cached, a 1 byte followed by the entry record otherwise. -/
def toFastGo (cdc : OutputCodec) (v : CoinView) : List Input → List Nat
  | [] => []
  | input :: rest =>
      (match v.getEntry input with
       | none => [0]
       | some e => 1 :: e.toWriterBytes cdc) ++ toFastGo cdc v rest

/-- `CoinView.prototype.toFast`. -/
def CoinView.toFast (cdc : OutputCodec) (v : CoinView) (tx : TX) : List Nat :=
  toFastGo cdc v tx.inputs

/-- Reader loop of `CoinView.prototype.fromFast`: per input in order, read
the flag byte; on nonzero decode one entry record and `addEntry` it at the
prevout of that input. -/
def fromFastGo (cdc : OutputCodec) :
    CoinView → List Input → List Nat → Option (CoinView × List Nat)
  | v, [], bs => some (v, bs)
  | v, input :: rest, bs =>
      match readU8 bs with
      | none => none
      | some (b, bs1) =>
          if b = 0 then fromFastGo cdc v rest bs1
          else
            match entryDecode cdc bs1 with
            | none => none
            | some (e, bs2) => fromFastGo cdc (v.addEntry input.prevout e).1 rest bs2

/-- Static `CoinView.fromFast`: decode into a fresh view. -/
def CoinView.fromFast (cdc : OutputCodec) (bs : List Nat) (tx : TX) :
    Option (CoinView × List Nat) :=
  fromFastGo cdc CoinView.init tx.inputs bs

/-- The map key that JavaScript `undefined` coerces to when used as an
object property name. -/
def undefinedKey : String := "undefined"

/-- `UndoCoins.prototype.apply` with the argument mismatch present in this
tree: it calls `view.addEntry(outpoint.hash, outpoint.index, undo)` while
`CoinView.prototype.addEntry` is the two-parameter function
`(prevout, coin)`.  Inside `addEntry` the string `outpoint.hash` plays the
role of `prevout`, so `prevout.hash` is undefined and the bucket lookup and
install use the key undefined coerces to; the number `outpoint.index` plays
the role of `coin`, so `coin.output` is undefined and the following
`.script` access throws a TypeError.  The result records the error outcome
together with the final stack (popped first) and the final view (with the
stray bucket installed when that key was fresh); on an empty stack the
`assert(undo)` fails. -/
def UndoCoins.apply (u : UndoCoins) (v : CoinView) (p : Outpoint) :
    Except JsErr Unit × UndoCoins × CoinView :=
  match u.items.getLast? with
  | none => (.error .assertFail, ⟨u.items.dropLast⟩, v)
  | some _ =>
      let u1 : UndoCoins := ⟨u.items.dropLast⟩
      let v1 :=
        match mapGet v.map undefinedKey with
        | some _ => v
        | none => v.add undefinedKey Coins.init
      (.error .typeError, u1, v1)

/-! ## Effect lemmas for the map, the slots and the single-coin inserts -/

theorem mapGet_mapSet_self (m : List (String × Coins)) (h : String) (c : Coins) :
    mapGet (mapSet m h c) h = some c := by
  induction m with
  | nil => simp [mapSet, mapGet]
  | cons kv rest ih =>
      obtain ⟨k, cv⟩ := kv
      by_cases ek : k = h
      · simp [mapSet, ek, mapGet]
      · simp [mapSet, ek, mapGet, ih]

theorem mapGet_mapSet_ne (m : List (String × Coins)) (h : String) (c : Coins)
    (h2 : String) (hne : h2 ≠ h) : mapGet (mapSet m h c) h2 = mapGet m h2 := by
  induction m with
  | nil => simp [mapSet, mapGet, Ne.symm hne]
  | cons kv rest ih =>
      obtain ⟨k, cv⟩ := kv
      by_cases ek : k = h
      · subst ek
        simp [mapSet, mapGet, Ne.symm hne]
      · simp [mapSet, ek, mapGet, ih]

theorem mapGet_mapSet (m : List (String × Coins)) (h : String) (c : Coins)
    (h2 : String) :
    mapGet (mapSet m h c) h2 = if h2 = h then some c else mapGet m h2 := by
  by_cases e : h2 = h
  · subst e
    rw [if_pos rfl, mapGet_mapSet_self]
  · rw [if_neg e, mapGet_mapSet_ne m h c h2 e]

theorem slotGet_set {outs : List (Option CoinEntry)} {i : Nat}
    (hi : i < outs.length) (s : Option CoinEntry) (j : Nat) :
    slotGet (outs.set i s) j =
      if j = i then (match s with | some e => some e | none => none)
      else slotGet outs j := by
  unfold slotGet
  by_cases hj : j = i
  · subst hj
    rw [if_pos rfl, List.getElem?_set_self']
    have hsome : outs[j]? = some outs[j] := List.getElem?_eq_getElem hi
    rw [hsome]
    cases s <;> simp [Function.const]
  · rw [if_neg hj, List.getElem?_set_ne (fun x => hj x.symm)]

theorem slotGet_setGrow (outs : List (Option CoinEntry)) (i : Nat)
    (e : CoinEntry) (j : Nat) :
    slotGet (setGrow outs i e) j = if j = i then some e else slotGet outs j := by
  unfold setGrow
  have hlen : i < (outs ++ List.replicate (i + 1 - outs.length) none).length := by
    simp only [List.length_append, List.length_replicate]
    omega
  by_cases hj : j = i
  · subst hj
    rw [slotGet_set hlen, if_pos rfl, if_pos rfl]
  · rw [slotGet_set hlen, if_neg hj, if_neg hj]
    unfold slotGet
    by_cases hlt : j < outs.length
    · rw [List.getElem?_append_left hlt]
    · push_neg at hlt
      rw [List.getElem?_append_right hlt, List.getElem?_replicate,
        List.getElem?_eq_none hlt]
      by_cases hc : j - outs.length < i + 1 - outs.length
      · rw [if_pos hc]
      · rw [if_neg hc]

/-- Observation of the view at an outpoint: the cached entry, with absent
bucket, out-of-range slot and null hole all reported as `none`; this is
`getEntry` keyed directly by the outpoint. -/
def CoinView.getEntryAt (v : CoinView) (p : Outpoint) : Option CoinEntry :=
  match mapGet v.map p.hash with
  | none => none
  | some c => slotGet c.outputs p.index

theorem getEntry_eq_getEntryAt (v : CoinView) (input : Input) :
    v.getEntry input = v.getEntryAt input.prevout := rfl

theorem addEntry_undo (v : CoinView) (pt : Outpoint) (e : CoinEntry) :
    ((v.addEntry pt e).1).undo = v.undo := by
  unfold CoinView.addEntry
  cases hm : v.get pt.hash <;>
    dsimp only <;>
    split <;>
    first
      | rfl
      | (split <;> rfl)

theorem addEntry_ret (v : CoinView) (pt : Outpoint) (e : CoinEntry) :
    ((v.addEntry pt e).2).isSome = !e.output.script.isUnspendable := by
  unfold CoinView.addEntry
  cases hm : v.get pt.hash <;>
    dsimp only <;>
    split <;>
    rename_i hu <;>
    simp only [hu] <;>
    first
      | rfl
      | (split <;> rfl)

theorem outpoint_eq_iff (q p : Outpoint) :
    q = p ↔ q.hash = p.hash ∧ q.index = p.index := by
  cases q
  cases p
  simp

theorem getEntryAt_add_bucket (v : CoinView) (h : String) (c : Coins)
    (q : Outpoint) :
    (v.add h c).getEntryAt q =
      if q.hash = h then slotGet c.outputs q.index else v.getEntryAt q := by
  unfold CoinView.getEntryAt CoinView.add
  dsimp only
  rw [mapGet_mapSet]
  by_cases hq : q.hash = h
  · rw [if_pos hq, if_pos hq]
  · rw [if_neg hq, if_neg hq]

theorem addEntry_getEntryAt (v : CoinView) (pt : Outpoint) (e : CoinEntry)
    (q : Outpoint) :
    ((v.addEntry pt e).1).getEntryAt q =
      if q = pt ∧ e.output.script.isUnspendable = false ∧ v.getEntryAt pt = none
      then some e
      else v.getEntryAt q := by
  unfold CoinView.addEntry
  cases hm : v.get pt.hash with
  | some c =>
      have hpt : v.getEntryAt pt = slotGet c.outputs pt.index := by
        unfold CoinView.getEntryAt
        rw [show mapGet v.map pt.hash = some c from hm]
      dsimp only
      by_cases hu : e.output.script.isUnspendable = true
      · have hc : ¬(q = pt ∧ e.output.script.isUnspendable = false ∧
            v.getEntryAt pt = none) := by simp [hu]
        rw [if_pos hu, if_neg hc]
      · rw [if_neg hu]
        by_cases hh : c.has pt.index = true
        · have hns : v.getEntryAt pt ≠ none := by
            rw [hpt]
            intro hx
            rw [show c.has pt.index = (slotGet c.outputs pt.index).isSome from rfl,
              hx] at hh
            simp at hh
          have hc : ¬(q = pt ∧ e.output.script.isUnspendable = false ∧
              v.getEntryAt pt = none) := fun hand => hns hand.2.2
          rw [if_pos hh, if_neg hc]
        · have hnone : v.getEntryAt pt = none := by
            rw [hpt]
            rw [show c.has pt.index = (slotGet c.outputs pt.index).isSome from rfl] at hh
            cases hx : slotGet c.outputs pt.index
            · rfl
            · rw [hx] at hh
              simp at hh
          rw [if_neg hh]
          dsimp only
          rw [getEntryAt_add_bucket]
          by_cases hq : q.hash = pt.hash
          · rw [if_pos hq]
            dsimp only [Coins.add]
            rw [slotGet_setGrow]
            by_cases hqi : q.index = pt.index
            · have hqpt : q = pt := (outpoint_eq_iff q pt).mpr ⟨hq, hqi⟩
              have hc : q = pt ∧ e.output.script.isUnspendable = false ∧
                  v.getEntryAt pt = none := ⟨hqpt, by simpa using hu, hnone⟩
              rw [if_pos hqi, if_pos hc]
            · have hqpt : ¬q = pt := fun x => hqi ((outpoint_eq_iff q pt).mp x).2
              have hc : ¬(q = pt ∧ e.output.script.isUnspendable = false ∧
                  v.getEntryAt pt = none) := fun hand => hqpt hand.1
              rw [if_neg hqi, if_neg hc]
              unfold CoinView.getEntryAt
              rw [show mapGet v.map q.hash = some c from hq ▸ hm]
          · rw [if_neg hq]
            have hqpt : ¬q = pt := fun x => hq ((outpoint_eq_iff q pt).mp x).1
            have hc : ¬(q = pt ∧ e.output.script.isUnspendable = false ∧
                v.getEntryAt pt = none) := fun hand => hqpt hand.1
            rw [if_neg hc]
  | none =>
      have hptn : v.getEntryAt pt = none := by
        unfold CoinView.getEntryAt
        rw [show mapGet v.map pt.hash = none from hm]
      have hqn : q.hash = pt.hash → v.getEntryAt q = none := by
        intro hq
        unfold CoinView.getEntryAt
        rw [show mapGet v.map q.hash = none from hq ▸ hm]
      dsimp only
      by_cases hu : e.output.script.isUnspendable = true
      · have hc : ¬(q = pt ∧ e.output.script.isUnspendable = false ∧
            v.getEntryAt pt = none) := by simp [hu]
        rw [if_pos hu, if_neg hc, getEntryAt_add_bucket]
        by_cases hq : q.hash = pt.hash
        · rw [if_pos hq, hqn hq]
          rfl
        · rw [if_neg hq]
      · rw [if_neg hu]
        rw [show (Coins.init.has pt.index) = false from rfl,
          if_neg (by simp : ¬(false = true))]
        rw [getEntryAt_add_bucket, getEntryAt_add_bucket]
        by_cases hq : q.hash = pt.hash
        · rw [if_pos hq]
          dsimp only [Coins.add]
          rw [slotGet_setGrow]
          by_cases hqi : q.index = pt.index
          · have hqpt : q = pt := (outpoint_eq_iff q pt).mpr ⟨hq, hqi⟩
            have hc : q = pt ∧ e.output.script.isUnspendable = false ∧
                v.getEntryAt pt = none := ⟨hqpt, by simpa using hu, hptn⟩
            rw [if_pos hqi, if_pos hc]
          · have hqpt : ¬q = pt := fun x => hqi ((outpoint_eq_iff q pt).mp x).2
            have hc : ¬(q = pt ∧ e.output.script.isUnspendable = false ∧
                v.getEntryAt pt = none) := fun hand => hqpt hand.1
            rw [if_neg hqi, if_neg hc, hqn hq]
            rfl
        · rw [if_neg hq, if_neg hq]
          have hqpt : ¬q = pt := fun x => hq ((outpoint_eq_iff q pt).mp x).1
          have hc : ¬(q = pt ∧ e.output.script.isUnspendable = false ∧
              v.getEntryAt pt = none) := fun hand => hqpt hand.1
          rw [if_neg hc]

/-! ## Spend effects and monotone facts used by the spendInputs loop -/

/-- Observation: the entry at an outpoint exists and is marked spent. -/
def isSpentAt (v : CoinView) (p : Outpoint) : Bool :=
  match v.getEntryAt p with
  | some e => e.spent
  | none => false

theorem getEntryAt_mapSet (m : List (String × Coins)) (u u2 : UndoCoins)
    (h : String) (c : Coins) (q : Outpoint) :
    CoinView.getEntryAt ⟨mapSet m h c, u⟩ q =
      if q.hash = h then slotGet c.outputs q.index
      else CoinView.getEntryAt ⟨m, u2⟩ q := by
  unfold CoinView.getEntryAt
  dsimp only
  rw [mapGet_mapSet]
  by_cases hq : q.hash = h
  · rw [if_pos hq, if_pos hq]
  · rw [if_neg hq, if_neg hq]

theorem slotGet_lt_length {outs : List (Option CoinEntry)} {i : Nat}
    {e : CoinEntry} (hsg : slotGet outs i = some e) : i < outs.length := by
  by_contra hx
  push_neg at hx
  unfold slotGet at hsg
  rw [List.getElem?_eq_none hx] at hsg
  simp at hsg

theorem spendFromAt_cases (v : CoinView) (h : String) (i : Nat) :
    (v.spendFromAt h i = (v, false)) ∨
    (∃ c e, mapGet v.map h = some c ∧ slotGet c.outputs i = some e ∧
      e.spent = false ∧
      v.spendFromAt h i =
        (⟨mapSet v.map h ⟨c.hash, c.outputs.set i (some { e with spent := true })⟩,
          v.undo.push { e with spent := true }⟩, true)) := by
  unfold CoinView.spendFromAt Coins.spend
  cases hmg : mapGet v.map h with
  | none => exact Or.inl rfl
  | some c =>
      dsimp only
      cases hsg : slotGet c.outputs i with
      | none => exact Or.inl rfl
      | some e =>
          dsimp only
          by_cases hs : e.spent = true
          · rw [if_pos hs]
            exact Or.inl rfl
          · rw [if_neg hs]
            exact Or.inr ⟨c, e, rfl, hsg, by simpa using hs, rfl⟩

theorem spendFromAt_true (v : CoinView) (h : String) (i : Nat)
    (htrue : (v.spendFromAt h i).2 = true) :
    ∃ e, v.getEntryAt ⟨h, i⟩ = some e ∧ e.spent = false ∧
      (∀ q, ((v.spendFromAt h i).1).getEntryAt q =
        if q = ⟨h, i⟩ then some { e with spent := true } else v.getEntryAt q) ∧
      ((v.spendFromAt h i).1).undo = v.undo.push { e with spent := true } := by
  rcases spendFromAt_cases v h i with heq | ⟨c, e, hmg, hsg, hsp, heq⟩
  · rw [heq] at htrue
    simp at htrue
  · refine ⟨e, ?_, hsp, ?_, ?_⟩
    · unfold CoinView.getEntryAt
      rw [show mapGet v.map (Outpoint.mk h i).hash = some c from hmg]
      exact hsg
    · intro q
      rw [heq]
      rw [getEntryAt_mapSet v.map (v.undo.push { e with spent := true }) v.undo h _ q]
      by_cases hq : q.hash = h
      · rw [if_pos hq]
        dsimp only
        rw [slotGet_set (slotGet_lt_length hsg)]
        by_cases hqi : q.index = i
        · have hqpt : q = ⟨h, i⟩ := (outpoint_eq_iff q ⟨h, i⟩).mpr ⟨hq, hqi⟩
          rw [if_pos hqi, if_pos hqpt]
        · have hqpt : ¬q = ⟨h, i⟩ := fun x => hqi ((outpoint_eq_iff q ⟨h, i⟩).mp x).2
          rw [if_neg hqi, if_neg hqpt]
          unfold CoinView.getEntryAt
          rw [show mapGet v.map q.hash = some c from hq ▸ hmg]
      · rw [if_neg hq]
        have hqpt : ¬q = ⟨h, i⟩ := fun x => hq ((outpoint_eq_iff q ⟨h, i⟩).mp x).1
        rw [if_neg hqpt]
    · rw [heq]

theorem isSpentAt_addEntry (v : CoinView) (pt : Outpoint) (e : CoinEntry)
    (q : Outpoint) (hq : isSpentAt v q = true) :
    isSpentAt ((v.addEntry pt e).1) q = true := by
  unfold isSpentAt at hq ⊢
  rw [addEntry_getEntryAt]
  by_cases hc : q = pt ∧ e.output.script.isUnspendable = false ∧
      v.getEntryAt pt = none
  · exfalso
    obtain ⟨hqp, _, hn⟩ := hc
    rw [hqp, hn] at hq
    simp at hq
  · rw [if_neg hc]
    exact hq

theorem undo_addEntry (v : CoinView) (pt : Outpoint) (e : CoinEntry) :
    ((v.addEntry pt e).1).undo = v.undo := addEntry_undo v pt e

theorem isSpentAt_readCoin (store : Outpoint → Option CoinEntry) (v : CoinView)
    (input : Input) (q : Outpoint) (hq : isSpentAt v q = true) :
    isSpentAt ((CoinView.readCoin store v input).1) q = true := by
  unfold CoinView.readCoin
  by_cases hhe : v.hasEntry input = true
  · rw [if_pos hhe]
    exact hq
  · rw [if_neg hhe]
    cases store input.prevout with
    | none => exact hq
    | some coin =>
        dsimp only
        exact isSpentAt_addEntry v input.prevout coin q hq

theorem undo_readCoin (store : Outpoint → Option CoinEntry) (v : CoinView)
    (input : Input) : ((CoinView.readCoin store v input).1).undo = v.undo := by
  unfold CoinView.readCoin
  by_cases hhe : v.hasEntry input = true
  · rw [if_pos hhe]
  · rw [if_neg hhe]
    cases store input.prevout with
    | none => rfl
    | some coin =>
        dsimp only
        exact addEntry_undo v input.prevout coin

theorem isSpentAt_spendFromAt (v : CoinView) (h : String) (i : Nat)
    (q : Outpoint) (hq : isSpentAt v q = true) :
    isSpentAt ((v.spendFromAt h i).1) q = true := by
  rcases spendFromAt_cases v h i with heq | ⟨c, e, hmg, hsg, hsp, heq⟩
  · rw [heq]
    exact hq
  · have h2 : (v.spendFromAt h i).2 = true := by rw [heq]
    obtain ⟨e2, hget, hsp2, hall, hundo⟩ := spendFromAt_true v h i h2
    unfold isSpentAt at hq ⊢
    rw [hall q]
    by_cases hqp : q = (⟨h, i⟩ : Outpoint)
    · rw [if_pos hqp]
    · rw [if_neg hqp]
      exact hq

theorem stepInput_isSpentAt (store : Outpoint → Option CoinEntry) (v : CoinView)
    (input : Input) (q : Outpoint) (hq : isSpentAt v q = true) :
    isSpentAt ((stepInput store v input).1) q = true := by
  unfold stepInput
  dsimp only
  by_cases hr : (CoinView.readCoin store v input).2 = true
  · rw [if_pos hr]
    exact isSpentAt_spendFromAt _ _ _ _ (isSpentAt_readCoin store v input q hq)
  · rw [if_neg hr]
    exact isSpentAt_readCoin store v input q hq

theorem stepInput_spends (store : Outpoint → Option CoinEntry) (v : CoinView)
    (input : Input) (h2 : (stepInput store v input).2 = true) :
    isSpentAt ((stepInput store v input).1) input.prevout = true := by
  unfold stepInput at h2 ⊢
  dsimp only at h2 ⊢
  by_cases hr : (CoinView.readCoin store v input).2 = true
  · rw [if_pos hr] at h2 ⊢
    obtain ⟨e, hget, hsp, hall, hundo⟩ :=
      spendFromAt_true ((CoinView.readCoin store v input).1)
        input.prevout.hash input.prevout.index h2
    unfold isSpentAt
    rw [hall input.prevout, if_pos rfl]
  · rw [if_neg hr] at h2
    simp at h2

theorem stepInput_undo_true (store : Outpoint → Option CoinEntry) (v : CoinView)
    (input : Input) (h2 : (stepInput store v input).2 = true) :
    ∃ x, ((stepInput store v input).1).undo.items = v.undo.items ++ [x] := by
  unfold stepInput at h2 ⊢
  dsimp only at h2 ⊢
  by_cases hr : (CoinView.readCoin store v input).2 = true
  · rw [if_pos hr] at h2 ⊢
    obtain ⟨e, hget, hsp, hall, hundo⟩ :=
      spendFromAt_true ((CoinView.readCoin store v input).1)
        input.prevout.hash input.prevout.index h2
    refine ⟨{ e with spent := true }, ?_⟩
    rw [hundo, undo_readCoin store v input]
    rfl
  · rw [if_neg hr] at h2
    simp at h2

theorem stepInput_undo_false (store : Outpoint → Option CoinEntry) (v : CoinView)
    (input : Input) (h2 : (stepInput store v input).2 = false) :
    ((stepInput store v input).1).undo = v.undo := by
  unfold stepInput at h2 ⊢
  dsimp only at h2 ⊢
  by_cases hr : (CoinView.readCoin store v input).2 = true
  · rw [if_pos hr] at h2 ⊢
    rcases spendFromAt_cases ((CoinView.readCoin store v input).1)
        input.prevout.hash input.prevout.index with heq | ⟨c, e, hmg, hsg, hsp, heq⟩
    · rw [heq]
      exact undo_readCoin store v input
    · rw [heq] at h2
      simp at h2
  · rw [if_neg hr] at h2 ⊢
    exact undo_readCoin store v input

theorem spendInputsGo_cons_true (store : Outpoint → Option CoinEntry)
    (v : CoinView) (i : Input) (l : List Input)
    (hr : (stepInput store v i).2 = true) :
    spendInputsGo store v (i :: l) = spendInputsGo store (stepInput store v i).1 l := by
  have hdef : spendInputsGo store v (i :: l) =
      if (stepInput store v i).2 = true then spendInputsGo store (stepInput store v i).1 l
      else ((stepInput store v i).1, false) := rfl
  rw [hdef, if_pos hr]

theorem spendInputsGo_cons_false (store : Outpoint → Option CoinEntry)
    (v : CoinView) (i : Input) (l : List Input)
    (hr : (stepInput store v i).2 = false) :
    spendInputsGo store v (i :: l) = ((stepInput store v i).1, false) := by
  have hdef : spendInputsGo store v (i :: l) =
      if (stepInput store v i).2 = true then spendInputsGo store (stepInput store v i).1 l
      else ((stepInput store v i).1, false) := rfl
  rw [hdef, if_neg (by simp [hr])]

theorem spendInputsGo_isSpentAt (store : Outpoint → Option CoinEntry)
    (ins : List Input) :
    ∀ (v : CoinView) (q : Outpoint), isSpentAt v q = true →
      isSpentAt ((spendInputsGo store v ins).1) q = true := by
  induction ins with
  | nil => intro v q hq; exact hq
  | cons i rest ih =>
      intro v q hq
      by_cases hr : (stepInput store v i).2 = true
      · rw [spendInputsGo_cons_true store v i rest hr]
        exact ih _ _ (stepInput_isSpentAt store v i q hq)
      · rw [spendInputsGo_cons_false store v i rest (by simpa using hr)]
        exact stepInput_isSpentAt store v i q hq

theorem spendInputsGo_true (store : Outpoint → Option CoinEntry)
    (ins : List Input) :
    ∀ v : CoinView, (spendInputsGo store v ins).2 = true →
      ((spendInputsGo store v ins).1).undo.items.length =
        v.undo.items.length + ins.length ∧
      ∀ j inp, ins.get? j = some inp →
        isSpentAt ((spendInputsGo store v ins).1) inp.prevout = true := by
  induction ins with
  | nil =>
      intro v _
      refine ⟨rfl, ?_⟩
      intro j inp hj
      simp at hj
  | cons i rest ih =>
      intro v htrue
      by_cases hr : (stepInput store v i).2 = true
      · rw [spendInputsGo_cons_true store v i rest hr] at htrue ⊢
        obtain ⟨hlen, hall⟩ := ih _ htrue
        obtain ⟨x, hx⟩ := stepInput_undo_true store v i hr
        constructor
        · rw [hlen, hx]
          simp only [List.length_append, List.length_cons, List.length_nil]
          omega
        · intro j inp hj
          cases j with
          | zero =>
              simp only [List.get?_cons_zero] at hj
              cases hj
              exact spendInputsGo_isSpentAt store rest _ _
                (stepInput_spends store v i hr)
          | succ j2 =>
              simp only [List.get?_cons_succ] at hj
              exact hall j2 inp hj
      · rw [spendInputsGo_cons_false store v i rest (by simpa using hr)] at htrue
        simp at htrue

theorem spendInputsGo_false (store : Outpoint → Option CoinEntry)
    (ins : List Input) :
    ∀ v : CoinView, (spendInputsGo store v ins).2 = false →
    ∃ k, k < ins.length ∧
      (spendInputsGo store v (ins.take k)).2 = true ∧
      (∃ inp, ins.get? k = some inp ∧
        (stepInput store ((spendInputsGo store v (ins.take k)).1) inp).2 = false ∧
        (spendInputsGo store v ins).1 =
          (stepInput store ((spendInputsGo store v (ins.take k)).1) inp).1) ∧
      ((spendInputsGo store v ins).1).undo.items.length =
        v.undo.items.length + k ∧
      (∀ j inp, j < k → ins.get? j = some inp →
        isSpentAt ((spendInputsGo store v ins).1) inp.prevout = true) := by
  induction ins with
  | nil =>
      intro v hfalse
      simp [spendInputsGo] at hfalse
  | cons i rest ih =>
      intro v hfalse
      by_cases hr : (stepInput store v i).2 = true
      · rw [spendInputsGo_cons_true store v i rest hr] at hfalse
        obtain ⟨k2, hk2, htk, ⟨inp, hinp, hstep, hres⟩, hlen, hall⟩ :=
          ih ((stepInput store v i).1) hfalse
        obtain ⟨x, hx⟩ := stepInput_undo_true store v i hr
        refine ⟨k2 + 1, by simpa using Nat.succ_lt_succ hk2, ?_, ?_, ?_, ?_⟩
        · rw [List.take_succ_cons, spendInputsGo_cons_true store v i _ hr]
          exact htk
        · refine ⟨inp, by simpa using hinp, ?_, ?_⟩
          · rw [List.take_succ_cons, spendInputsGo_cons_true store v i _ hr]
            exact hstep
          · rw [spendInputsGo_cons_true store v i rest hr, hres,
              List.take_succ_cons, spendInputsGo_cons_true store v i _ hr]
        · rw [spendInputsGo_cons_true store v i rest hr, hlen, hx]
          simp only [List.length_append, List.length_cons, List.length_nil]
          omega
        · intro j inp2 hjk hj
          rw [spendInputsGo_cons_true store v i rest hr]
          cases j with
          | zero =>
              simp only [List.get?_cons_zero] at hj
              cases hj
              exact spendInputsGo_isSpentAt store rest _ _
                (stepInput_spends store v i hr)
          | succ j2 =>
              simp only [List.get?_cons_succ] at hj
              exact hall j2 inp2 (by omega) hj
      · have hr2 : (stepInput store v i).2 = false := by simpa using hr
        refine ⟨0, by simp, by simp [spendInputsGo], ?_, ?_, ?_⟩
        · refine ⟨i, rfl, ?_, ?_⟩
          · simpa [spendInputsGo] using hr2
          · rw [spendInputsGo_cons_false store v i rest hr2]
            rfl
        · rw [spendInputsGo_cons_false store v i rest hr2]
          dsimp only
          rw [stepInput_undo_false store v i hr2]
          simp
        · intro j inp2 hjk hj
          omega

/-! ## Serialization lemmas for CoinEntry records -/

theorem entryDecode_entryEncode (cdc : OutputCodec)
    (hdec : ∀ o rest, cdc.decode (cdc.encode o ++ rest) = some (o, rest))
    (e : CoinEntry) (hv : e.version < 18446744073709551616)
    (hh1 : -1 ≤ e.height) (hh2 : e.height ≤ 536870910) (rest : List Nat) :
    entryDecode cdc (entryEncode cdc e ++ rest) = some (persistEntry e, rest) := by
  unfold entryEncode entryDecode
  rw [List.append_assoc, List.append_assoc, readVarint_writeVarint hv]
  dsimp only
  rw [readU32_u32le (by
    have := packHeight_lt e.height e.coinbase hh1 hh2
    omega)]
  dsimp only
  rw [hdec]
  dsimp only
  rw [unpackHeight_packHeight _ _ hh1 hh2, unpackCoinbase_packHeight _ _ hh1 hh2]
  rfl

theorem toWriterBytes_coherent (cdc : OutputCodec) (e : CoinEntry)
    (hraw : e.raw = none ∨ e.raw = some (entryEncode cdc e)) :
    e.toWriterBytes cdc = entryEncode cdc e := by
  unfold CoinEntry.toWriterBytes
  rcases hraw with h | h <;> rw [h]

theorem getSize_toWriterBytes (cdc : OutputCodec)
    (hsize : ∀ o, cdc.size o = (cdc.encode o).length) (e : CoinEntry) :
    e.getSize cdc = (e.toWriterBytes cdc).length := by
  unfold CoinEntry.getSize CoinEntry.toWriterBytes
  cases e.raw with
  | none =>
      dsimp only
      unfold entryEncode
      simp only [List.length_append, length_writeVarint, hsize, u32le,
        List.length_cons, List.length_nil]
  | some r => rfl

/-- The serializability domain of an entry: a version in range, a height in
the packable interval of spec section 8, a spendable script (spec section 8,
nothing unspendable is ever stored), and a raw cache that is absent or
agrees with the packed record (spec section 3: a set `raw` is authoritative
for the serialization). -/
def EntryWF (cdc : OutputCodec) (e : CoinEntry) : Prop :=
  e.version < 4294967296 ∧ -1 ≤ e.height ∧ e.height ≤ 536870910 ∧
  e.output.script.isUnspendable = false ∧
  (e.raw = none ∨ e.raw = some (entryEncode cdc e))

instance (cdc : OutputCodec) (e : CoinEntry) : Decidable (EntryWF cdc e) := by
  unfold EntryWF
  infer_instance

/-! ## Characterization of `Coins.length` -/

theorem unspentLen_le (outs : List (Option CoinEntry)) :
    ∀ n, unspentLen outs n ≤ n := by
  intro n
  induction n with
  | zero => exact Nat.le_refl 0
  | succ n ih =>
      unfold unspentLen
      by_cases hb : isUnspentSlot outs n = true
      · rw [if_pos hb]
      · rw [if_neg hb]
        omega

theorem unspentLen_gt (outs : List (Option CoinEntry)) :
    ∀ n j, j < n → isUnspentSlot outs j = true → j < unspentLen outs n := by
  intro n
  induction n with
  | zero => intro j hj _; omega
  | succ n ih =>
      intro j hj hu
      unfold unspentLen
      by_cases hb : isUnspentSlot outs n = true
      · rw [if_pos hb]
        omega
      · rw [if_neg hb]
        have hne : j ≠ n := by
          intro hx
          rw [hx] at hu
          exact hb hu
        exact ih j (by omega) hu

theorem unspentLen_top (outs : List (Option CoinEntry)) :
    ∀ n m, unspentLen outs n = m + 1 → isUnspentSlot outs m = true := by
  intro n
  induction n with
  | zero => intro m hm; cases hm
  | succ n ih =>
      intro m hm
      unfold unspentLen at hm
      by_cases hb : isUnspentSlot outs n = true
      · rw [if_pos hb] at hm
        have : m = n := by omega
        rw [this]
        exact hb
      · rw [if_neg hb] at hm
        exact ih m hm

theorem isUnspentSlot_lt_length {outs : List (Option CoinEntry)} {j : Nat}
    (hu : isUnspentSlot outs j = true) : j < outs.length := by
  unfold isUnspentSlot at hu
  cases hsg : slotGet outs j with
  | none => rw [hsg] at hu; cases hu
  | some e => exact slotGet_lt_length hsg

theorem length_spec (c : Coins) :
    (∀ j, c.isUnspent j = true → j < c.length) ∧
    (c.length = 0 ∨ c.isUnspent (c.length - 1) = true) := by
  constructor
  · intro j hj
    exact unspentLen_gt c.outputs c.outputs.length j
      (isUnspentSlot_lt_length hj) hj
  · cases hm : unspentLen c.outputs c.outputs.length with
    | zero => exact Or.inl hm
    | succ m =>
        refine Or.inr ?_
        have := unspentLen_top c.outputs c.outputs.length m hm
        unfold Coins.length
        rw [hm]
        simpa using this

theorem length_unique (P : Nat → Bool) (L1 L2 : Nat)
    (h1a : ∀ j, P j = true → j < L1) (h1b : L1 = 0 ∨ P (L1 - 1) = true)
    (h2a : ∀ j, P j = true → j < L2) (h2b : L2 = 0 ∨ P (L2 - 1) = true) :
    L1 = L2 := by
  rcases h1b with hz | hp
  · rcases h2b with hz2 | hp2
    · omega
    · have := h1a _ hp2
      omega
  · rcases h2b with hz2 | hp2
    · have := h2a _ hp
      omega
    · have ha := h2a _ hp
      have hb := h1a _ hp2
      omega

theorem spend_eq (c : Coins) (i : Nat) (e : CoinEntry)
    (hsg : slotGet c.outputs i = some e) (hsp : e.spent = false) :
    c.spend i =
      (⟨c.hash, c.outputs.set i (some { e with spent := true })⟩,
        some { e with spent := true }) := by
  unfold Coins.spend
  rw [hsg]
  dsimp only
  rw [if_neg (by simp [hsp])]

theorem spend_isUnspent (c : Coins) (i : Nat) (e : CoinEntry)
    (hsg : slotGet c.outputs i = some e) (hsp : e.spent = false) (j : Nat) :
    ((c.spend i).1.isUnspent j = true) ↔ (c.isUnspent j = true ∧ ¬j = i) := by
  rw [spend_eq c i e hsg hsp]
  unfold Coins.isUnspent isUnspentSlot
  dsimp only
  rw [slotGet_set (slotGet_lt_length hsg)]
  by_cases hj : j = i
  · rw [if_pos hj]
    simp [hj]
  · rw [if_neg hj]
    simp [hj]

/-! ## A concrete lawful output codec for the closed witnesses

The real codec is external (spec sections 1 and 6); witnesses need one
concrete implementation of its contract.  Values and lengths use a
self-delimiting unary encoding so that the decode-of-encode law holds on
the whole `Output` type. -/

/-- Unary writer: `n` one-bytes then a zero byte. -/
def unaryEnc (n : Nat) : List Nat := List.replicate n 1 ++ [0]

/-- Unary reader. -/
def unaryDec : List Nat → Option (Nat × List Nat)
  | [] => none
  | b :: r =>
      if b = 0 then some (0, r)
      else (unaryDec r).map fun p => (p.1 + 1, p.2)

theorem unaryDec_unaryEnc (n : Nat) (rest : List Nat) :
    unaryDec (unaryEnc n ++ rest) = some (n, rest) := by
  induction n with
  | zero => rfl
  | succ n ih =>
      have h1 : unaryEnc (n + 1) ++ rest = 1 :: (unaryEnc n ++ rest) := by
        unfold unaryEnc
        rw [List.replicate_succ]
        simp
      rw [h1]
      unfold unaryDec
      rw [if_neg (by omega), ih]
      rfl

/-- Test codec encode: unary value, one unspendable flag byte, unary script
length, script bytes. -/
def testEncode (o : Output) : List Nat :=
  unaryEnc o.value ++ (if o.script.unspendable then 1 else 0) ::
    (unaryEnc o.script.bytes.length ++ o.script.bytes)

/-- Test codec decode. -/
def testDecode (bs : List Nat) : Option (Output × List Nat) :=
  match unaryDec bs with
  | none => none
  | some (v, r1) =>
      match readU8 r1 with
      | none => none
      | some (f, r2) =>
          match unaryDec r2 with
          | none => none
          | some (n, r3) =>
              match readBytes n r3 with
              | none => none
              | some (s, r4) => some (⟨v, ⟨s, f == 1⟩⟩, r4)

/-- The concrete codec instance used by witnesses. -/
def testCodec : OutputCodec := ⟨testEncode, testDecode, fun o => (testEncode o).length⟩

theorem testCodec_decode (o : Output) (rest : List Nat) :
    testCodec.decode (testCodec.encode o ++ rest) = some (o, rest) := by
  show testDecode (testEncode o ++ rest) = some (o, rest)
  unfold testEncode testDecode
  rw [List.append_assoc, unaryDec_unaryEnc]
  dsimp only [readU8]
  rw [List.cons_append, List.append_assoc]
  dsimp only
  rw [unaryDec_unaryEnc]
  dsimp only
  rw [readBytes_append]
  dsimp only
  cases o with
  | mk v s =>
      cases s with
      | mk bts u =>
          cases u <;> rfl

theorem testCodec_size (o : Output) :
    testCodec.size o = (testCodec.encode o).length := rfl

/-! ## Fast-form lemmas -/

theorem toFastGo_eq_bind (cdc : OutputCodec) (v : CoinView) :
    ∀ ins : List Input,
      toFastGo cdc v ins = ins.bind fun input =>
        match v.getEntry input with
        | none => [0]
        | some e => 1 :: e.toWriterBytes cdc := by
  intro ins
  induction ins with
  | nil => rfl
  | cons i rest ih =>
      unfold toFastGo
      rw [ih]
      rfl

theorem fast_size_aux (cdc : OutputCodec)
    (hsize : ∀ o, cdc.size o = (cdc.encode o).length) (v : CoinView) :
    ∀ (ins : List Input) (acc : Nat),
      ins.foldl
        (fun a input =>
          match v.getEntry input with
          | none => a
          | some e => a + e.getSize cdc) acc + ins.length
      = acc + (toFastGo cdc v ins).length := by
  intro ins
  induction ins with
  | nil => intro acc; rfl
  | cons i rest ih =>
      intro acc
      rw [List.foldl_cons, List.length_cons]
      unfold toFastGo
      rw [List.length_append]
      cases hgi : v.getEntry i with
      | none =>
          dsimp only
          have := ih acc
          simp only [List.length_cons, List.length_nil]
          omega
      | some e =>
          dsimp only
          have h1 := ih (acc + e.getSize cdc)
          have h2 := getSize_toWriterBytes cdc hsize e
          simp only [List.length_cons]
          omega

theorem fromFastGo_cons (cdc : OutputCodec) (vd : CoinView) (i : Input)
    (rest : List Input) (b : Nat) (bs : List Nat) :
    fromFastGo cdc vd (i :: rest) (b :: bs) =
      if b = 0 then fromFastGo cdc vd rest bs
      else
        match entryDecode cdc bs with
        | none => none
        | some (e, bs2) => fromFastGo cdc (vd.addEntry i.prevout e).1 rest bs2 := rfl

theorem persistEntry_output (e : CoinEntry) : (persistEntry e).output = e.output := rfl

theorem fromFastGo_spec (cdc : OutputCodec)
    (hdec : ∀ o rest, cdc.decode (cdc.encode o ++ rest) = some (o, rest))
    (v : CoinView) :
    ∀ (ins done : List Input) (vd : CoinView),
      (∀ inp ∈ ins, ∀ e, v.getEntry inp = some e → EntryWF cdc e) →
      (∀ p : Outpoint, vd.getEntryAt p =
        if done.any (fun d => decide (d.prevout = p))
        then (v.getEntryAt p).map persistEntry else none) →
      ∃ v2, fromFastGo cdc vd ins (toFastGo cdc v ins) = some (v2, []) ∧
        ∀ p : Outpoint, v2.getEntryAt p =
          if (done ++ ins).any (fun d => decide (d.prevout = p))
          then (v.getEntryAt p).map persistEntry else none := by
  intro ins
  induction ins with
  | nil =>
      intro done vd hwf hinv
      refine ⟨vd, rfl, ?_⟩
      intro p
      rw [List.append_nil]
      exact hinv p
  | cons i rest ih =>
      intro done vd hwf hinv
      have hwfrest : ∀ inp ∈ rest, ∀ e, v.getEntry inp = some e → EntryWF cdc e :=
        fun inp hmem e he => hwf inp (List.mem_cons_of_mem i hmem) e he
      unfold toFastGo
      cases hgi : v.getEntry i with
      | none =>
          dsimp only
          rw [show ([0] ++ toFastGo cdc v rest : List Nat) =
            0 :: toFastGo cdc v rest from rfl]
          rw [fromFastGo_cons, if_pos rfl]
          have hinv2 : ∀ p : Outpoint, vd.getEntryAt p =
              if (done ++ [i]).any (fun d => decide (d.prevout = p))
              then (v.getEntryAt p).map persistEntry else none := by
            intro p
            by_cases hip : i.prevout = p
            · subst hip
              have hvp : v.getEntryAt i.prevout = none := by
                rw [← getEntry_eq_getEntryAt]
                exact hgi
              rw [hinv i.prevout, hvp]
              simp
            · rw [hinv p]
              simp [List.any_append, List.any_cons, List.any_nil, hip]
          obtain ⟨v2, heq, hp⟩ := ih (done ++ [i]) vd hwfrest hinv2
          refine ⟨v2, heq, ?_⟩
          intro p
          rw [hp p]
          simp [List.any_append, List.any_cons, List.any_nil]
      | some e =>
          dsimp only
          have hwfe : EntryWF cdc e := hwf i (List.mem_cons_self i rest) e hgi
          obtain ⟨hv32, hh1, hh2, hunsp, hraw⟩ := hwfe
          rw [toWriterBytes_coherent cdc e hraw]
          rw [show ((1 :: entryEncode cdc e) ++ toFastGo cdc v rest : List Nat) =
            1 :: (entryEncode cdc e ++ toFastGo cdc v rest) from rfl]
          rw [fromFastGo_cons, if_neg (by omega : ¬(1 = 0)),
            entryDecode_entryEncode cdc hdec e (by omega) hh1 hh2]
          dsimp only
          have hinv2 : ∀ p : Outpoint,
              ((vd.addEntry i.prevout (persistEntry e)).1).getEntryAt p =
              if (done ++ [i]).any (fun d => decide (d.prevout = p))
              then (v.getEntryAt p).map persistEntry else none := by
            intro p
            rw [addEntry_getEntryAt]
            by_cases hip : i.prevout = p
            · subst hip
              have hvq : v.getEntryAt i.prevout = some e := by
                rw [← getEntry_eq_getEntryAt]
                exact hgi
              by_cases hd : done.any (fun d => decide (d.prevout = i.prevout)) = true
              · have hvd : vd.getEntryAt i.prevout = some (persistEntry e) := by
                  rw [hinv i.prevout, if_pos hd, hvq]
                  rfl
                rw [if_neg (fun hand => by
                  rw [hvd] at hand
                  cases hand.2.2)]
                rw [hvd, hvq]
                simp [List.any_append, List.any_cons, List.any_nil, hd]
              · have hvd : vd.getEntryAt i.prevout = none := by
                  rw [hinv i.prevout, if_neg hd]
                rw [if_pos ⟨rfl, by
                  rw [persistEntry_output]
                  exact hunsp, hvd⟩]
                rw [hvq]
                simp [List.any_append, List.any_cons, List.any_nil]
            · rw [if_neg (fun hand => hip hand.1.symm)]
              rw [hinv p]
              simp [List.any_append, List.any_cons, List.any_nil, hip]
          obtain ⟨v2, heq, hp⟩ := ih (done ++ [i])
            ((vd.addEntry i.prevout (persistEntry e)).1) hwfrest hinv2
          refine ⟨v2, heq, ?_⟩
          intro p
          rw [hp p]
          simp [List.any_append, List.any_cons, List.any_nil]

/-! ## Concrete fixtures for the closed theorems and witnesses -/

/-- A spendable script fixture. -/
def spendableScript : Script := ⟨[81], false⟩

/-- An unspendable script fixture (an OP_RETURN-style byte). -/
def unspendableScript : Script := ⟨[106], true⟩

/-- Output fixtures. -/
def outA : Output := ⟨50, spendableScript⟩

/-- A second spendable output fixture. -/
def outB : Output := ⟨25, spendableScript⟩

/-- An unspendable output fixture. -/
def outU : Output := ⟨0, unspendableScript⟩

/-- Transaction id fixtures. -/
def hashA : String := "aa"

/-- A second transaction id fixture. -/
def hashB : String := "bb"

/-- Entry fixtures. -/
def entryA : CoinEntry := ⟨1, 100, false, outA, false, none⟩

/-- A second entry fixture. -/
def entryB : CoinEntry := ⟨1, 7, true, outB, false, none⟩

/-- An entry whose output script is unspendable (as a store could supply). -/
def entryU : CoinEntry := ⟨1, 5, false, outU, false, none⟩

/-- The spent image of `entryA`. -/
def spentA : CoinEntry := { entryA with spent := true }

/-- A view as it stands after one successful spend of `(hashA, 0)`: the
entry is marked spent in its bucket and sits on the undo stack. -/
def viewAfterSpend : CoinView := ⟨[(hashA, ⟨hashA, [some spentA]⟩)], ⟨[spentA]⟩⟩

/-- Outpoint and input fixtures. -/
def outpointA : Outpoint := ⟨hashA, 0⟩

/-- Input spending `(hashA, 0)`. -/
def inputA0 : Input := ⟨⟨hashA, 0⟩⟩

/-- Input spending `(hashB, 0)`. -/
def inputB0 : Input := ⟨⟨hashB, 0⟩⟩

/-- C1: after `spendFrom` succeeded once on outpoint `(hashA, 0)` (state
`viewAfterSpend`), one `UndoCoins.apply` in reverse order is expected to
reinsert the popped entry and restore the pre-spend view.  Instead the
mismatched call `view.addEntry(outpoint.hash, outpoint.index, undo)` throws
a TypeError after installing a stray bucket under the key that undefined
coerces to: the entry at the outpoint stays spent, nothing is reinserted,
and the view is not restored; only the fatal assertion on an empty stack
behaves as described. -/
theorem C1_apply_breaks :
    (UndoCoins.apply viewAfterSpend.undo viewAfterSpend outpointA).1 =
      Except.error JsErr.typeError ∧
    (UndoCoins.apply viewAfterSpend.undo viewAfterSpend outpointA).2.1.items = [] ∧
    isSpentAt (UndoCoins.apply viewAfterSpend.undo viewAfterSpend outpointA).2.2
      outpointA = true ∧
    (UndoCoins.apply viewAfterSpend.undo viewAfterSpend outpointA).2.2.get
      undefinedKey = some Coins.init ∧
    (UndoCoins.apply ⟨[]⟩ viewAfterSpend outpointA).1 =
      Except.error JsErr.assertFail :=
  ⟨rfl, rfl, rfl, rfl, rfl⟩

/-- C2: on the domain of spec section 8 — height in `[-1, 2^29 - 2]`, a
32-bit version, and a raw cache that is absent or agrees with the packed
record — decoding the bytes written by `toWriter` restores the same
version, height, coinbase and output, re-encoding the decoded entry is
byte-identical, and the height/coinbase packing round-trips on the whole
domain. -/
theorem C2_coinentry_roundtrip (cdc : OutputCodec)
    (hdec : ∀ o rest, cdc.decode (cdc.encode o ++ rest) = some (o, rest))
    (e : CoinEntry) (hver : e.version < 4294967296)
    (hh1 : -1 ≤ e.height) (hh2 : e.height ≤ 536870910)
    (hraw : e.raw = none ∨ e.raw = some (entryEncode cdc e)) :
    (∃ e2, entryDecode cdc (e.toWriterBytes cdc) = some (e2, []) ∧
      e2.version = e.version ∧ e2.height = e.height ∧ e2.coinbase = e.coinbase ∧
      e2.output = e.output ∧ e2.toWriterBytes cdc = e.toWriterBytes cdc) ∧
    (∀ (h : Int) (c : Bool), -1 ≤ h → h ≤ 536870910 →
      unpackHeight (packHeight h c) = h ∧ unpackCoinbase (packHeight h c) = c) := by
  constructor
  · refine ⟨persistEntry e, ?_, rfl, rfl, rfl, rfl, ?_⟩
    · rw [toWriterBytes_coherent cdc e hraw]
      have hrt := entryDecode_entryEncode cdc hdec e (by omega) hh1 hh2 []
      rwa [List.append_nil] at hrt
    · rw [toWriterBytes_coherent cdc e hraw]
      rfl
  · intro h c hc1 hc2
    exact ⟨unpackHeight_packHeight h c hc1 hc2, unpackCoinbase_packHeight h c hc1 hc2⟩

/-- Entry fixture for the C2 witness, with a version exercising the
three-byte varint branch. -/
def entryW2 : CoinEntry := ⟨300, 100, true, outA, false, none⟩

/-- Witness for C2 at `testCodec` and `entryW2`. -/
theorem C2_witness :
    (∀ o rest, testCodec.decode (testCodec.encode o ++ rest) = some (o, rest)) ∧
    entryW2.version < 4294967296 ∧ (-1 : Int) ≤ entryW2.height ∧
    entryW2.height ≤ 536870910 ∧
    (entryW2.raw = none ∨ entryW2.raw = some (entryEncode testCodec entryW2)) ∧
    ((∃ e2, entryDecode testCodec (entryW2.toWriterBytes testCodec) = some (e2, []) ∧
      e2.version = entryW2.version ∧ e2.height = entryW2.height ∧
      e2.coinbase = entryW2.coinbase ∧ e2.output = entryW2.output ∧
      e2.toWriterBytes testCodec = entryW2.toWriterBytes testCodec) ∧
    (∀ (h : Int) (c : Bool), -1 ≤ h → h ≤ 536870910 →
      unpackHeight (packHeight h c) = h ∧ unpackCoinbase (packHeight h c) = c)) :=
  ⟨testCodec_decode, by decide, by decide, by decide, Or.inl rfl,
    C2_coinentry_roundtrip testCodec testCodec_decode entryW2 (by decide)
      (by decide) (by decide) (Or.inl rfl)⟩

/-- C3: `spendFrom` on a missing or already spent slot returns false and
changes neither the bucket nor the undo stack; on an unspent slot it marks
the entry spent, pushes exactly that one entry onto the shared undo stack,
and returns true. -/
theorem C3_spendFrom (v : CoinView) (c : Coins) (i : Nat) :
    (c.get i = none → v.spendFrom c i = (v, c, false)) ∧
    (∀ e, c.get i = some e → e.spent = true → v.spendFrom c i = (v, c, false)) ∧
    (∀ e, c.get i = some e → e.spent = false →
      v.spendFrom c i =
        (⟨v.map, ⟨v.undo.items ++ [{ e with spent := true }]⟩⟩,
         ⟨c.hash, c.outputs.set i (some { e with spent := true })⟩, true)) := by
  refine ⟨?_, ?_, ?_⟩
  · intro h
    unfold CoinView.spendFrom Coins.spend
    rw [show slotGet c.outputs i = none from h]
  · intro e he hs
    unfold CoinView.spendFrom Coins.spend
    rw [show slotGet c.outputs i = some e from he]
    dsimp only
    rw [if_pos hs]
  · intro e he hs
    unfold CoinView.spendFrom
    rw [spend_eq c i e he hs]
    rfl

/-- Witness for C3: all three branches at concrete buckets. -/
theorem C3_witness :
    (Coins.mk hashA [] : Coins).get 5 = none ∧
    CoinView.init.spendFrom ⟨hashA, []⟩ 5 = (CoinView.init, ⟨hashA, []⟩, false) ∧
    (Coins.mk hashA [some spentA] : Coins).get 0 = some spentA ∧
    spentA.spent = true ∧
    CoinView.init.spendFrom ⟨hashA, [some spentA]⟩ 0 =
      (CoinView.init, ⟨hashA, [some spentA]⟩, false) ∧
    (Coins.mk hashA [some entryA] : Coins).get 0 = some entryA ∧
    entryA.spent = false ∧
    CoinView.init.spendFrom ⟨hashA, [some entryA]⟩ 0 =
      (⟨CoinView.init.map, ⟨CoinView.init.undo.items ++ [{ entryA with spent := true }]⟩⟩,
       ⟨(Coins.mk hashA [some entryA] : Coins).hash,
        (Coins.mk hashA [some entryA] : Coins).outputs.set 0
          (some { entryA with spent := true })⟩, true) :=
  ⟨rfl,
   (C3_spendFrom CoinView.init ⟨hashA, []⟩ 5).1 rfl,
   rfl, rfl,
   (C3_spendFrom CoinView.init ⟨hashA, [some spentA]⟩ 0).2.1 spentA rfl rfl,
   rfl, rfl,
   (C3_spendFrom CoinView.init ⟨hashA, [some entryA]⟩ 0).2.2 entryA rfl rfl⟩

/-- Per-input well-formedness of a view for the fast form: whenever a coin
is cached for the input, that entry lies in the serializability domain. -/
def WFat (cdc : OutputCodec) (v : CoinView) (inp : Input) : Prop :=
  match v.getEntry inp with
  | some e => EntryWF cdc e
  | none => True

instance (cdc : OutputCodec) (v : CoinView) (inp : Input) :
    Decidable (WFat cdc v inp) := by
  unfold WFat
  cases v.getEntry inp <;> infer_instance

/-- C4: the fast form writes, per input in order, a 0 byte when no coin is
cached and a 1 byte followed by that entry record otherwise;
`getFastSize` computes exactly the byte count; and decoding those bytes
against the same transaction rebuilds, for every input, the persisted image
of the original entry when one was cached and nothing when none was (the
spent flag is in-memory only and the raw cache is not rebuilt, spec
section 3). -/
theorem C4_fast_roundtrip (cdc : OutputCodec)
    (hdec : ∀ o rest, cdc.decode (cdc.encode o ++ rest) = some (o, rest))
    (hsize : ∀ o, cdc.size o = (cdc.encode o).length)
    (v : CoinView) (tx : TX)
    (hwf : ∀ inp ∈ tx.inputs, WFat cdc v inp) :
    CoinView.toFast cdc v tx =
      (tx.inputs.bind fun input =>
        match v.getEntry input with
        | none => [0]
        | some e => 1 :: e.toWriterBytes cdc) ∧
    CoinView.getFastSize cdc v tx = (CoinView.toFast cdc v tx).length ∧
    ∃ v2, CoinView.fromFast cdc (CoinView.toFast cdc v tx) tx = some (v2, []) ∧
      ∀ inp ∈ tx.inputs, v2.getEntry inp = (v.getEntry inp).map persistEntry := by
  have hwf2 : ∀ inp ∈ tx.inputs, ∀ e, v.getEntry inp = some e → EntryWF cdc e := by
    intro inp hmem e he
    have hw := hwf inp hmem
    unfold WFat at hw
    rw [he] at hw
    exact hw
  refine ⟨toFastGo_eq_bind cdc v tx.inputs, ?_, ?_⟩
  · unfold CoinView.getFastSize CoinView.toFast
    have haux := fast_size_aux cdc hsize v tx.inputs tx.inputs.length
    omega
  · obtain ⟨v2, heq, hp⟩ := fromFastGo_spec cdc hdec v tx.inputs [] CoinView.init
      hwf2 (fun p => rfl)
    refine ⟨v2, heq, ?_⟩
    intro inp hmem
    rw [getEntry_eq_getEntryAt, hp inp.prevout]
    have hany : ([] ++ tx.inputs).any
        (fun d => decide (d.prevout = inp.prevout)) = true := by
      simp only [List.nil_append]
      exact List.any_eq_true.mpr ⟨inp, hmem, by simp⟩
    rw [if_pos hany, ← getEntry_eq_getEntryAt]

/-- View fixture for the C4 witness: one bucket with an entry at index 0
under `hashA`, one bucket with an interior hole and an entry at index 1
under `hashB`. -/
def viewW4 : CoinView :=
  ⟨[(hashA, ⟨hashA, [some entryA]⟩), (hashB, ⟨hashB, [none, some entryB]⟩)], ⟨[]⟩⟩

/-- Transaction fixture for the C4 witness: one cached input, one uncached
input, one input whose bucket exists with a hole at another index. -/
def txW4 : TX := ⟨"cc", 1, false, [], [⟨⟨hashA, 0⟩⟩, ⟨⟨hashA, 1⟩⟩, ⟨⟨hashB, 1⟩⟩]⟩

/-- Witness for C4 at `testCodec`, `viewW4` and `txW4`. -/
theorem C4_witness :
    (∀ o rest, testCodec.decode (testCodec.encode o ++ rest) = some (o, rest)) ∧
    (∀ o, testCodec.size o = (testCodec.encode o).length) ∧
    (∀ inp ∈ txW4.inputs, WFat testCodec viewW4 inp) ∧
    (CoinView.toFast testCodec viewW4 txW4 =
      (txW4.inputs.bind fun input =>
        match viewW4.getEntry input with
        | none => [0]
        | some e => 1 :: e.toWriterBytes testCodec) ∧
    CoinView.getFastSize testCodec viewW4 txW4 =
      (CoinView.toFast testCodec viewW4 txW4).length ∧
    ∃ v2, CoinView.fromFast testCodec (CoinView.toFast testCodec viewW4 txW4) txW4 =
        some (v2, []) ∧
      ∀ inp ∈ txW4.inputs,
        v2.getEntry inp = (viewW4.getEntry inp).map persistEntry) :=
  ⟨testCodec_decode, testCodec_size, by decide,
   C4_fast_roundtrip testCodec testCodec_decode testCodec_size viewW4 txW4
     (by decide)⟩

/-- C5: `spendInputs` walks the inputs in order, read-through-loading and
immediately spending each; a true result means every input was resolved and
spent, with exactly one undo push per input; a false result happens at the
first input that cannot be resolved or is already spent, and every earlier
successful spend remains applied — its entry is still marked spent and its
undo push is still on the stack (exactly `k` pushes for the `k` earlier
inputs; no rollback). -/
theorem C5_spendInputs (store : Outpoint → Option CoinEntry) (v : CoinView)
    (tx : TX) :
    (∀ v2, CoinView.spendInputs store v tx = (v2, true) →
      v2.undo.items.length = v.undo.items.length + tx.inputs.length ∧
      ∀ j inp, tx.inputs.get? j = some inp → isSpentAt v2 inp.prevout = true) ∧
    (∀ v2, CoinView.spendInputs store v tx = (v2, false) →
      ∃ k, k < tx.inputs.length ∧
        (spendInputsGo store v (tx.inputs.take k)).2 = true ∧
        (∃ inp, tx.inputs.get? k = some inp ∧
          (stepInput store ((spendInputsGo store v (tx.inputs.take k)).1) inp).2
            = false ∧
          v2 = (stepInput store
            ((spendInputsGo store v (tx.inputs.take k)).1) inp).1) ∧
        v2.undo.items.length = v.undo.items.length + k ∧
        (∀ j inp, j < k → tx.inputs.get? j = some inp →
          isSpentAt v2 inp.prevout = true)) := by
  constructor
  · intro v2 heq
    have h2 : (spendInputsGo store v tx.inputs).2 = true := by
      show (CoinView.spendInputs store v tx).2 = true
      rw [heq]
    have h1 : (spendInputsGo store v tx.inputs).1 = v2 := by
      show (CoinView.spendInputs store v tx).1 = v2
      rw [heq]
    obtain ⟨hlen, hall⟩ := spendInputsGo_true store tx.inputs v h2
    rw [h1] at hlen hall
    exact ⟨hlen, hall⟩
  · intro v2 heq
    have h2 : (spendInputsGo store v tx.inputs).2 = false := by
      show (CoinView.spendInputs store v tx).2 = false
      rw [heq]
    have h1 : (spendInputsGo store v tx.inputs).1 = v2 := by
      show (CoinView.spendInputs store v tx).1 = v2
      rw [heq]
    obtain ⟨k, hk, htk, ⟨inp, hinp, hstep, hres⟩, hlen, hall⟩ :=
      spendInputsGo_false store tx.inputs v h2
    rw [h1] at hres hlen hall
    exact ⟨k, hk, htk, ⟨inp, hinp, hstep, hres⟩, hlen, hall⟩

/-- Store fixture for the C5 witness: only `(hashA, 0)` resolves. -/
def storeW5 : Outpoint → Option CoinEntry :=
  fun p => if p = ⟨hashA, 0⟩ then some entryA else none

/-- Transaction fixture for the C5 witness: the first input resolves and
spends, the second cannot be resolved. -/
def txW5 : TX := ⟨"dd", 1, false, [], [⟨⟨hashA, 0⟩⟩, ⟨⟨hashB, 0⟩⟩]⟩

/-- Witness for C5: the loop fails at the second input and the first spend
stays applied, with its single undo push on the stack. -/
theorem C5_witness :
    CoinView.spendInputs storeW5 CoinView.init txW5 =
      ((CoinView.spendInputs storeW5 CoinView.init txW5).1, false) ∧
    (∃ k, k < txW5.inputs.length ∧
      (spendInputsGo storeW5 CoinView.init (txW5.inputs.take k)).2 = true ∧
      (∃ inp, txW5.inputs.get? k = some inp ∧
        (stepInput storeW5
          ((spendInputsGo storeW5 CoinView.init (txW5.inputs.take k)).1) inp).2
          = false ∧
        (CoinView.spendInputs storeW5 CoinView.init txW5).1 =
          (stepInput storeW5
            ((spendInputsGo storeW5 CoinView.init (txW5.inputs.take k)).1) inp).1) ∧
      ((CoinView.spendInputs storeW5 CoinView.init txW5).1).undo.items.length =
        CoinView.init.undo.items.length + k ∧
      (∀ j inp, j < k → txW5.inputs.get? j = some inp →
        isSpentAt ((CoinView.spendInputs storeW5 CoinView.init txW5).1)
          inp.prevout = true)) :=
  ⟨by decide,
   (C5_spendInputs storeW5 CoinView.init txW5).2
     ((CoinView.spendInputs storeW5 CoinView.init txW5).1) (by decide)⟩

/-- View fixture for C6: one bucket holding `entryA` at index 0. -/
def viewC6 : CoinView := ⟨[(hashA, ⟨hashA, [some entryA]⟩)], ⟨[]⟩⟩

/-- C6: `getEntry` and `getOutput` behave as described — nothing for an
absent bucket or slot, the cached entry and its decoded output otherwise —
but `getCoin` never materializes a coin: `CoinView.prototype.getCoin`
passes the whole `input.prevout` where `Coins.prototype.getCoin` expects a
numeric index, so whenever the bucket exists the slot lookup dereferences
undefined and throws a TypeError. -/
theorem C6_projections :
    viewC6.getEntry inputA0 = some entryA ∧
    viewC6.getOutput inputA0 = Except.ok (some entryA.output) ∧
    viewC6.getCoin inputA0 = Except.error JsErr.typeError ∧
    viewC6.getEntry inputB0 = none ∧
    viewC6.getOutput inputB0 = Except.ok none ∧
    viewC6.getCoin inputB0 = Except.ok none :=
  ⟨rfl, rfl, rfl, rfl, rfl, rfl⟩

/-- Transaction fixture with an unspendable output before a spendable one:
its `Coins.fromTX` image has an interior null hole at index 0. -/
def txHole : TX := ⟨hashB, 1, false, [outU, outA], []⟩

/-- The bucket built from `txHole` at height 1. -/
def coinsHole : Coins := Coins.fromTX txHole 1

/-- C7: `get` returns nothing, without an exception, both past the end and
on an interior null hole; `getOutput` and `getCoin` return nothing only
past the end — on an in-range interior hole they dereference the null slot
(`this.outputs[index].toOutput()` / `.toCoin(...)`) and throw a TypeError. -/
theorem C7_hole_accessors :
    coinsHole.outputs = [none, some (txOutEntry txHole 1 outA)] ∧
    coinsHole.get 0 = none ∧
    coinsHole.get 5 = none ∧
    coinsHole.getOutput 5 = Except.ok none ∧
    coinsHole.getCoin 5 = Except.ok none ∧
    coinsHole.getOutput 0 = Except.error JsErr.typeError ∧
    coinsHole.getCoin 0 = Except.error JsErr.typeError ∧
    coinsHole.getOutput 1 = Except.ok (some outA) ∧
    coinsHole.getCoin 1 =
      Except.ok (some ((txOutEntry txHole 1 outA).toCoin hashB 1)) :=
  ⟨rfl, rfl, rfl, rfl, rfl, rfl, rfl, rfl, rfl⟩

/-- C8 counterexample: in `coinsHole` the final (and only) unspent index is
1 and `length()` is 2; spending index 1 drops `length()` to 0, not to 1 —
the hole at index 0 makes the shrink larger than one. -/
theorem C8_counterexample :
    coinsHole.length = 2 ∧
    coinsHole.isUnspent 1 = true ∧
    coinsHole.isUnspent 0 = false ∧
    ((coinsHole.spend 1).1).length = 0 ∧
    ¬(((coinsHole.spend 1).1).length = coinsHole.length - 1) :=
  ⟨rfl, rfl, rfl, rfl, by decide⟩

/-- C8 as amended: `length()` is one past the highest unspent index (0 if
none); spending an unspent entry below some other unspent entry leaves
`length()` unchanged; spending the entry at the final unspent index shrinks
`length()` by at least one, landing at one past the highest remaining
unspent index (0 if none) — not necessarily by exactly one. -/
theorem C8_length_spend (c : Coins) :
    ((∀ j, c.isUnspent j = true → j < c.length) ∧
      (c.length = 0 ∨ c.isUnspent (c.length - 1) = true)) ∧
    (∀ i e, slotGet c.outputs i = some e → e.spent = false →
      ((∃ j, i < j ∧ c.isUnspent j = true) → ((c.spend i).1).length = c.length) ∧
      ((∀ j, c.isUnspent j = true → j ≤ i) →
        ((c.spend i).1).length < c.length ∧
        (((c.spend i).1).length = 0 ∨
          ((c.spend i).1).isUnspent (((c.spend i).1).length - 1) = true) ∧
        (∀ j, ((c.spend i).1).isUnspent j = true → j < ((c.spend i).1).length))) := by
  refine ⟨length_spec c, ?_⟩
  intro i e hsg hsp
  have hui : c.isUnspent i = true := by
    unfold Coins.isUnspent isUnspentSlot
    rw [hsg]
    dsimp only
    rw [hsp]
    rfl
  have hilen : i < c.length := (length_spec c).1 i hui
  have hiff := spend_isUnspent c i e hsg hsp
  constructor
  · intro ⟨j, hij, huj⟩
    have hjlen : j < c.length := (length_spec c).1 j huj
    refine (length_unique (fun k => ((c.spend i).1).isUnspent k)
      ((c.spend i).1).length c.length
      (length_spec ((c.spend i).1)).1 (length_spec ((c.spend i).1)).2 ?_ ?_)
    · intro k hk
      exact (length_spec c).1 k ((hiff k).mp hk).1
    · right
      have hlz : c.length ≠ 0 := by omega
      have hctop : c.isUnspent (c.length - 1) = true := by
        rcases (length_spec c).2 with hz | ht
        · omega
        · exact ht
      refine (hiff (c.length - 1)).mpr ⟨hctop, ?_⟩
      omega
  · intro hfin
    have hlt : ∀ k, ((c.spend i).1).isUnspent k = true → k < i := by
      intro k hk
      obtain ⟨hck, hkne⟩ := (hiff k).mp hk
      have := hfin k hck
      omega
    refine ⟨?_, (length_spec ((c.spend i).1)).2, (length_spec ((c.spend i).1)).1⟩
    rcases (length_spec ((c.spend i).1)).2 with hz | ht
    · omega
    · have := hlt _ ht
      have hle := (length_spec ((c.spend i).1)).1 _ ht
      omega

/-- Bucket fixture for the C8 witness: two unspent entries. -/
def coinsW8 : Coins := ⟨hashA, [some entryA, some entryB]⟩

/-- Witness for C8: spending index 0 (below the unspent index 1) keeps the
length; spending the final unspent index 1 shrinks it. -/
theorem C8_witness :
    slotGet coinsW8.outputs 0 = some entryA ∧ entryA.spent = false ∧
    ((coinsW8.spend 0).1).length = coinsW8.length ∧
    slotGet coinsW8.outputs 1 = some entryB ∧ entryB.spent = false ∧
    ((coinsW8.spend 1).1).length < coinsW8.length := by
  refine ⟨rfl, rfl, ?_, rfl, rfl, ?_⟩
  · exact ((C8_length_spend coinsW8).2 0 entryA rfl rfl).1 ⟨1, by decide, rfl⟩
  · refine (((C8_length_spend coinsW8).2 1 entryB rfl rfl).2 ?_).1
    intro j hj
    have hlen := ((C8_length_spend coinsW8).1).1 j hj
    have hval : coinsW8.length = 2 := rfl
    omega

/-- Transaction fixture with two spendable outputs. -/
def txGood : TX := ⟨hashA, 1, false, [outA, outB], []⟩

/-- C9: on a transaction with no interior hole, `removeTX` installs under
the transaction hash the same bucket `addTX` builds with every entry marked
spent; but on any transaction where an unspendable output precedes a
spendable one, the freshly built bucket has an interior null hole and the
marking loop assigns `spent` on null, throwing a TypeError instead of
installing anything. -/
theorem C9_removeTX :
    CoinView.removeTX CoinView.init txGood 1 =
      Except.ok (CoinView.init.add hashA
        ⟨hashA, [some { txOutEntry txGood 1 outA with spent := true },
                 some { txOutEntry txGood 1 outB with spent := true }]⟩) ∧
    CoinView.addTX CoinView.init txGood 1 =
      CoinView.init.add hashA
        ⟨hashA, [some (txOutEntry txGood 1 outA), some (txOutEntry txGood 1 outB)]⟩ ∧
    (Coins.fromTX txHole 1).outputs = [none, some (txOutEntry txHole 1 outA)] ∧
    CoinView.removeTX CoinView.init txHole 1 = Except.error JsErr.typeError :=
  ⟨rfl, rfl, rfl, rfl⟩

/-- Unspendable coin fixture (a `primitives/coin` with unspendable script). -/
def coinU : Coin := ⟨1, 5, false, unspendableScript, 0, hashA, 0⟩

/-- C10: with no bucket cached for the hash, `addEntry`, `addOutput` and
`addCoin` with an unspendable script still create and install an empty
bucket before the unspendable check drops the coin: afterwards `has` is
true, the bucket is empty, the call returns nothing; `readCoin` on a
store-supplied unspendable coin likewise returns nothing while having
mutated the map. -/
theorem C10_unspendable_bucket (v : CoinView) (h : String) (i : Nat)
    (e : CoinEntry) (coin : Coin) (o : Output)
    (store : Outpoint → Option CoinEntry) (input : Input)
    (hv : v.get h = none)
    (he : e.output.script.isUnspendable = true)
    (hc : coin.script.isUnspendable = true) (hch : coin.hash = h)
    (ho : o.script.isUnspendable = true)
    (hinp : input.prevout = ⟨h, i⟩)
    (hst : store input.prevout = some e) :
    v.addEntry ⟨h, i⟩ e = (⟨mapSet v.map h Coins.init, v.undo⟩, none) ∧
    v.addOutput ⟨h, i⟩ o = ⟨mapSet v.map h Coins.init, v.undo⟩ ∧
    v.addCoin coin = (⟨mapSet v.map h Coins.init, v.undo⟩, none) ∧
    ((v.addEntry ⟨h, i⟩ e).1.has h = true ∧
      (v.addEntry ⟨h, i⟩ e).1.get h = some Coins.init ∧
      Coins.init.outputs = []) ∧
    CoinView.readCoin store v input = (⟨mapSet v.map h Coins.init, v.undo⟩, false) := by
  have h1 : v.addEntry ⟨h, i⟩ e = (⟨mapSet v.map h Coins.init, v.undo⟩, none) := by
    unfold CoinView.addEntry
    rw [show v.get (Outpoint.mk h i).hash = none from hv]
    dsimp only
    rw [if_pos he]
    rfl
  refine ⟨h1, ?_, ?_, ?_, ?_⟩
  · unfold CoinView.addOutput
    rw [show v.get (Outpoint.mk h i).hash = none from hv]
    dsimp only
    rw [if_pos ho]
    rfl
  · unfold CoinView.addCoin
    rw [show v.get coin.hash = none from hch ▸ hv]
    dsimp only
    rw [if_pos hc, hch]
    rfl
  · rw [h1]
    refine ⟨?_, ?_, rfl⟩
    · show (mapGet (mapSet v.map h Coins.init) h).isSome = true
      rw [mapGet_mapSet_self]
      rfl
    · show mapGet (mapSet v.map h Coins.init) h = some Coins.init
      rw [mapGet_mapSet_self]
  · have hhe : v.hasEntry input = false := by
      unfold CoinView.hasEntry
      rw [hinp, show v.get (Outpoint.mk h i).hash = none from hv]
    unfold CoinView.readCoin
    rw [if_neg (by simp [hhe]), hst]
    dsimp only
    rw [hinp, h1]
    rfl

/-- Store fixture supplying the unspendable `entryU` at `(hashA, 0)`. -/
def storeW10 : Outpoint → Option CoinEntry :=
  fun p => if p = ⟨hashA, 0⟩ then some entryU else none

/-- Witness for C10 at the empty view and the unspendable fixtures. -/
theorem C10_witness :
    CoinView.init.get hashA = none ∧
    entryU.output.script.isUnspendable = true ∧
    coinU.script.isUnspendable = true ∧ coinU.hash = hashA ∧
    outU.script.isUnspendable = true ∧
    inputA0.prevout = (⟨hashA, 0⟩ : Outpoint) ∧
    storeW10 inputA0.prevout = some entryU ∧
    (CoinView.init.addEntry ⟨hashA, 0⟩ entryU =
      (⟨mapSet CoinView.init.map hashA Coins.init, CoinView.init.undo⟩, none) ∧
    CoinView.init.addOutput ⟨hashA, 0⟩ outU =
      ⟨mapSet CoinView.init.map hashA Coins.init, CoinView.init.undo⟩ ∧
    CoinView.init.addCoin coinU =
      (⟨mapSet CoinView.init.map hashA Coins.init, CoinView.init.undo⟩, none) ∧
    ((CoinView.init.addEntry ⟨hashA, 0⟩ entryU).1.has hashA = true ∧
      (CoinView.init.addEntry ⟨hashA, 0⟩ entryU).1.get hashA = some Coins.init ∧
      Coins.init.outputs = []) ∧
    CoinView.readCoin storeW10 CoinView.init inputA0 =
      (⟨mapSet CoinView.init.map hashA Coins.init, CoinView.init.undo⟩, false)) :=
  ⟨rfl, rfl, rfl, rfl, rfl, rfl, rfl,
   C10_unspendable_bucket CoinView.init hashA 0 entryU coinU outU storeW10 inputA0
     rfl rfl rfl rfl rfl rfl rfl⟩
